import Mathlib

/-!
Verification development for the `django-fusionbox` repository.

The repository has two source files:

* `fusionbox/behaviors.py` — a model-composition layer ("behaviors") for the
  Django ORM: a custom metaclass (`MetaBehavior`), a base mixin (`Behavior`),
  concrete behaviors (`Timestampable`, `Publishable`, `SEO`, `Validation`) and
  a queryset-merging model base (`QuerySetManagerModel`).
* `fusionbox/core/templatetags/uncaptcha.py` — a template tag rendering the
  `uncaptcha` field of a form.

We shallowly embed the code here.  Python/Django host-framework machinery that
the code manipulates (template contexts, forms, model fields, attribute
dictionaries, the validation-error type) is modelled explicitly; the functions
of the repository are translated statement by statement from the source.
-/

set_option autoImplicit false

namespace Fusionbox

/-! ## Host-framework model: template contexts and forms

A Django template `Context` is a stack of dictionaries (`context.dicts`);
variable lookup scans from the innermost dictionary outwards, while
`context[k] = v` writes into the innermost dictionary and `del context[k]`
deletes from the innermost dictionary (raising `KeyError` when the key is not
there).  We represent the stack with the innermost frame first.

A bound field of a form is identified by the form's identity and the field
name; `form[name]` returns the bound field when the form has that field and
raises `KeyError` otherwise.
-/

structure BoundField where
  formId : Nat
  fieldName : String
deriving DecidableEq

structure PyForm where
  formId : Nat
  fieldNames : List String
deriving DecidableEq

def PyForm.getItem (f : PyForm) (k : String) : Option BoundField :=
  if f.fieldNames.contains k then some ⟨f.formId, k⟩ else none

inductive PyVal where
  | strV (s : String)
  | formV (f : PyForm)
  | fieldV (bf : BoundField)
deriving DecidableEq

/-- One dictionary of a context stack. -/
abbrev Frame := List (String × PyVal)

/-- A template context: stack of frames, innermost first. -/
abbrev Ctx := List Frame

def frameGet (fr : Frame) (k : String) : Option PyVal :=
  (List.find? (fun p => p.1 == k) fr).map (fun p => p.2)

/-- `d[k] = v` on one dictionary: replace in place, or append a new entry. -/
def frameSet (fr : Frame) (k : String) (v : PyVal) : Frame :=
  if List.any fr (fun p => p.1 == k) then
    List.map (fun p => if p.1 == k then (k, v) else p) fr
  else fr ++ [(k, v)]

/-- `del d[k]` on one dictionary. -/
def frameDel (fr : Frame) (k : String) : Frame :=
  List.filter (fun p => !(p.1 == k)) fr

/-- Context lookup: innermost frame that has the key wins. -/
def ctxGet : Ctx → String → Option PyVal
  | [], _ => none
  | fr :: rest, k =>
    match frameGet fr k with
    | some v => some v
    | none => ctxGet rest k

/-- `context[k] = v`: writes into the innermost frame. -/
def ctxSet : Ctx → String → PyVal → Ctx
  | [], k, v => [[(k, v)]]
  | fr :: rest, k, v => frameSet fr k v :: rest

/-- `del context[k]`: deletes from the innermost frame, `none` on `KeyError`. -/
def ctxDel : Ctx → String → Option Ctx
  | [], _ => none
  | fr :: rest, k =>
    if List.any fr (fun p => p.1 == k) then some (frameDel fr k :: rest)
    else none

/-! ## `fusionbox/core/templatetags/uncaptcha.py`

```python
@register.simple_tag(takes_context=True, name='uncaptcha')
def uncaptcha(context, form=None):
    if form:
        field = form['uncaptcha']
    else:
        field = context['form']['uncaptcha']
    context['field'] = field
    rendered_uncaptcha = render_to_string('forms/fields/uncaptcha.html', context)
    del context['field']
    return rendered_uncaptcha
```

`render_to_string` is host-framework code; we abstract it as a function from
template name and context to a string.  A Django form is always truthy, so
`if form:` distinguishes exactly whether the optional argument was supplied.
The function returns the rendered string together with the context as the tag
leaves it (the context is mutated in place in Python); `none` models an
uncaught exception (`KeyError` on a missing form or field).
-/

def uncaptcha (render : String → Ctx → String) (context : Ctx) (form : Option PyForm) :
    Option (String × Ctx) :=
  let field? : Option BoundField :=
    match form with
    | some f => f.getItem "uncaptcha"
    | none =>
      match ctxGet context "form" with
      | some (.formV f) => f.getItem "uncaptcha"
      | _ => none
  match field? with
  | none => none
  | some bf =>
    let ctx1 := ctxSet context "field" (.fieldV bf)
    let rendered := render "forms/fields/uncaptcha.html" ctx1
    match ctxDel ctx1 "field" with
    | some ctx2 => some (rendered, ctx2)
    | none => none

/-! ## Host-framework model: model fields

A Django model field carries construction options.  The only options the
behaviors use are `default` (either the callable `now` or a boolean constant),
`auto_now`, `auto_now_add`, `max_length` and `help_text`.  A field *object*
additionally has a Python object identity (`fid`); `copy.copy` produces an
object with the same data and a fresh identity.
-/

inductive FDefault where
  | nowFn
  | boolConst (b : Bool)
deriving DecidableEq

structure FieldData where
  ftype : String
  default? : Option FDefault
  auto_now : Bool
  auto_now_add : Bool
  max_length : Option Nat
  help_text : Option String
deriving DecidableEq

structure FieldObj where
  fid : Nat
  data : FieldData
deriving DecidableEq

/-- A class-body attribute, as found in the `attrs` dict of a metaclass call:
a model field, an inner configuration class (a plain class whose attributes
map a behavior's field name to its customized name), or anything else. -/
inductive PyAttr where
  | fieldA (f : FieldObj)
  | configA (m : List (String × String))
  | otherA
deriving DecidableEq

/-! ## `MetaBehavior.__new__`: the base-order check (behaviors.py lines 72-81)

```python
found_django_meta_without_behavior = False
for base in bases:
    if not issubclass(base, object):
        continue
    mro = base.mro()
    if found_django_meta_without_behavior and Behavior in mro:
        raise ImproperlyConfigured(u'...')
    mro_modules = [klass.__module__ for klass in mro]
    if not 'fusionbox.behaviors' in mro_modules and models.Model in mro:
        found_django_meta_without_behavior = True
```

A base is summarized by what the check inspects: whether it is a new-style
class (`issubclass(base, object)`), the modules of the classes in its method
resolution order, and whether `Behavior` resp. `models.Model` occur in that
method resolution order.
-/

structure BaseCls where
  isNewStyle : Bool
  mroModules : List String
  hasBehavior : Bool
  hasModel : Bool
deriving DecidableEq

/-- One iteration of the loop: takes and returns the pair
`(found_django_meta_without_behavior, raised)`. -/
def basesCheckStep (st : Bool × Bool) (base : BaseCls) : Bool × Bool :=
  if !base.isNewStyle then st
  else
    let raised := st.2 || (st.1 && base.hasBehavior)
    let found := st.1 ||
      (!(base.mroModules.contains "fusionbox.behaviors") && base.hasModel)
    (found, raised)

/-- `true` iff the loop raises `ImproperlyConfigured`. -/
def basesCheck (bases : List BaseCls) : Bool :=
  (bases.foldl basesCheckStep (false, false)).2

/-! ## The class under construction

`MCls` is the state of a model class that the behaviors machinery manipulates:

* `attrNames` — the names `n` with `hasattr(cls, n)` true (methods, fields,
  inner configuration classes, inherited attributes, ...);
* `configs` — the inner configuration classes reachable as `getattr(cls, B)`
  that actually carry rename entries (an `EmptyObject` placeholder or a
  missing configuration is represented by the absence of the key: every
  attribute lookup on it fails);
* `fields` — the model fields installed via `add_to_class`, by final name;
* `declared_fields` — the `declared_fields` dict the metaclass stores on the
  class (fields ripped out of an abstract class body);
* `proxy` — `cls._meta.proxy`;
* `nextId` — the next fresh Python object identity, used to model
  `copy.copy`.
-/

structure MCls where
  attrNames : List String
  configs : List (String × List (String × String))
  fields : List (String × FieldObj)
  declared_fields : List (String × FieldObj)
  proxy : Bool
  nextId : Nat
deriving DecidableEq

def MCls.hasattr (cls : MCls) (n : String) : Bool :=
  cls.attrNames.contains n

/-- `getattr(getattr(cls, pname), name)` where `getattr(cls, pname)` is the
inner configuration class for behavior `pname`: `none` models
`AttributeError`. -/
def MCls.configLookup (cls : MCls) (pname name : String) : Option String :=
  match List.find? (fun p => p.1 == pname) cls.configs with
  | some c => (List.find? (fun p => p.1 == name) c.2).map (fun p => p.2)
  | none => none

/-- `cls.add_to_class(new_name, copy.copy(field))`: installs a copy of the
field (fresh object identity, same data) under `new_name`; the new name
becomes an attribute of the class. -/
def MCls.addFieldCopy (cls : MCls) (new_name : String) (field : FieldObj) : MCls :=
  ⟨cls.attrNames ++ [new_name], cls.configs,
   cls.fields ++ [(new_name, ⟨cls.nextId, field.data⟩)],
   cls.declared_fields, cls.proxy, cls.nextId + 1⟩

/-- `setattr(cls, pname, EmptyObject())` (behaviors.py line 166): the name
becomes an attribute but, being an `EmptyObject`, carries no rename entries. -/
def MCls.setEmptyConfig (cls : MCls) (pname : String) : MCls :=
  ⟨cls.attrNames ++ [pname], cls.configs, cls.fields,
   cls.declared_fields, cls.proxy, cls.nextId⟩

/-! ## `Behavior.modify_schema` (behaviors.py lines 146-174)

```python
for parent in cls.mro():
    if cls._meta.proxy:
        continue
    try:
        declared_fields = parent.declared_fields
    except AttributeError:
        continue
    for name, field in declared_fields.iteritems():
        if not hasattr(cls, parent.__name__):
            setattr(cls, parent.__name__, EmptyObject())
        try:
            new_name = getattr(getattr(cls, parent.__name__), name)
        except AttributeError:
            new_name = name
            setattr(getattr(parent, parent.__name__), name, name)
        if not hasattr(cls, new_name):
            cls.add_to_class(new_name, copy.copy(field))
```

An entry of `cls.mro()` is summarized by its name and its `declared_fields`
attribute (`none` when the lookup raises `AttributeError`, as on
`models.Model` and `object`).  The `setattr` in the `except` branch writes the
default name back into the *parent behavior's* configuration class; it does
not change which fields the present class receives, and is dropped from the
state here.
-/

structure ParentRec where
  pname : String
  declared_fields : Option (List (String × FieldObj))
deriving DecidableEq

/-- The body of the inner loop, for a single declared field of `parent`. -/
def modifySchemaField (pname : String) (cls : MCls) (name : String) (field : FieldObj) : MCls :=
  let cls := if cls.hasattr pname then cls else cls.setEmptyConfig pname
  let new_name := match cls.configLookup pname name with
    | some n => n
    | none => name
  if cls.hasattr new_name then cls else cls.addFieldCopy new_name field

namespace Behavior

def modify_schema (mro : List ParentRec) (cls : MCls) : MCls :=
  mro.foldl
    (fun cls parent =>
      if cls.proxy then cls
      else
        match parent.declared_fields with
        | none => cls
        | some decl =>
          decl.foldl (fun c nf => modifySchemaField parent.pname c nf.1 nf.2) cls)
    cls

end Behavior

/-! ## `Behavior.merge_parent_settings` (behaviors.py lines 176-193)

```python
behaviors = [behavior.__name__ for behavior in cls.base_behaviors()]
for behavior in behaviors:
    parent_settings = [getattr(parent, behavior, False) for parent in cls.__bases__]
    if behavior in cls.__dict__:
        parent_settings = [getattr(cls, behavior)] + parent_settings
    parent_settings = filter(bool, parent_settings)
    if parent_settings:
        setattr(cls, behavior, type(behavior, tuple(parent_settings), {}))
```

`type(behavior, tuple(parent_settings), {})` builds a class whose attribute
lookup tries the settings classes left to right; with each settings class a
flat rename dictionary, this is first-match lookup over the concatenation,
hence the merged configuration is modelled by the concatenated association
list.  `getattr(parent, behavior, False)` resolves to `False` when the base
has no such attribute and to a falsy `EmptyObject` placeholder otherwise
absent of entries; both are removed by `filter(bool, ...)` and are modelled by
`none`.  A direct base is summarized by the configuration classes it resolves.
-/

def lookupConfig (cs : List (String × List (String × String))) (b : String) :
    Option (List (String × String)) :=
  (List.find? (fun p => p.1 == b) cs).map (fun p => p.2)

/-- `cs[b] = m` on an (insertion-ordered, duplicate-free) dictionary:
replace the entry in place, or append a new one. -/
def setConfig : List (String × List (String × String)) → String →
    List (String × String) → List (String × List (String × String))
  | [], b, m => [(b, m)]
  | p :: cs, b, m => if p.1 == b then (b, m) :: cs else p :: setConfig cs b m

/-- The loop body of `merge_parent_settings` for one behavior name `b`. -/
def mergeStep (ownConfigs : List (String × List (String × String)))
    (basesConfigs : List (List (String × List (String × String))))
    (acc : List (String × List (String × String))) (b : String) :
    List (String × List (String × String)) :=
  let ps := basesConfigs.map (fun bc => lookupConfig bc b)
  let ps := match lookupConfig ownConfigs b with
    | some m => some m :: ps
    | none => ps
  let settings := ps.filterMap id
  if settings.isEmpty then acc else setConfig acc b settings.flatten

def merge_parent_settings (behaviors : List String)
    (ownConfigs : List (String × List (String × String)))
    (basesConfigs : List (List (String × List (String × String))))
    (configs : List (String × List (String × String))) :
    List (String × List (String × String)) :=
  behaviors.foldl (mergeStep ownConfigs basesConfigs) configs

/-! ## `QuerySetManagerModel.merge_parent_settings` (behaviors.py lines 240-259)

```python
querysets = [getattr(parent, 'QuerySet', False) for parent in cls.__bases__]
if 'QuerySet' in cls.__dict__:
    querysets = [cls.QuerySet] + querysets
querysets = filter(bool, querysets)
if querysets:
    cls.QuerySet = type('QuerySet', tuple(querysets), {})
if cls.__name__ == 'QuerySetManagerModel':
    return
return super(QuerySetManagerModel, cls).merge_parent_settings()
```

An inner `QuerySet` class is summarized by the set of queryset methods its
instances expose (its own and inherited ones); the class built by
`type('QuerySet', tuple(querysets), {})` exposes a method iff one of the
merged classes does.  `getattr(parent, 'QuerySet', False)` is the queryset
class a direct base resolves (also by inheritance), `none` when there is
none.  The function returns the class's resulting `QuerySet` attribute:
when nothing is merged the inherited attribute (`inheritedQS`) is untouched.
-/

structure QSClass where
  methods : List String
deriving DecidableEq

def qsm_merge_parent_settings (ownQS : Option QSClass)
    (basesQS : List (Option QSClass)) (inheritedQS : Option QSClass) :
    Option QSClass :=
  let querysets := basesQS
  let querysets := match ownQS with
    | some q => some q :: querysets
    | none => querysets
  let querysets := querysets.filterMap id
  if querysets.isEmpty then inheritedQS
  else some ⟨(querysets.map QSClass.methods).flatten⟩

/-! ## `MetaBehavior.__new__` (behaviors.py lines 51-103)

After the base-order check, the metaclass rips every `models.Field` attribute
out of an *abstract* class body into `declared_fields`, lets Django's
`ModelBase.__new__` build the class from the remaining attributes, runs
`merge_parent_settings`, and runs `modify_schema` on non-abstract classes;
abstract classes are guaranteed an inner settings class named after
themselves (an `EmptyObject` when the body declares none).

`ModelBase.__new__` is host-framework code and is passed in as `modelbaseNew`;
the direct bases enter twice, once summarized for the base-order check
(`bases`) and once by the configuration classes they resolve
(`basesConfigs`); `behaviors` is the list of `base_behaviors()` names and
`mro` the method resolution order of the new class, its own entry first.
The result is `Except`: `error` models the `ImproperlyConfigured` raise.
-/

def ripDeclaredFields (attrs : List (String × PyAttr)) :
    List (String × FieldObj) × List (String × PyAttr) :=
  (attrs.filterMap (fun p => match p.2 with | .fieldA f => some (p.1, f) | _ => none),
   attrs.filter (fun p => match p.2 with | .fieldA _ => false | _ => true))

def ownConfigsOf (attrs : List (String × PyAttr)) :
    List (String × List (String × String)) :=
  attrs.filterMap (fun p => match p.2 with | .configA m => some (p.1, m) | _ => none)

/-- Lines 83-95 of `__new__`: rip the declared fields of an abstract body,
let `ModelBase.__new__` build the class, and run `merge_parent_settings`. -/
def metabehavior_premerge (isAbstract : Bool) (attrs : List (String × PyAttr))
    (modelbaseNew : List (String × FieldObj) → List (String × PyAttr) → MCls)
    (behaviors : List String)
    (basesConfigs : List (List (String × List (String × String)))) : MCls :=
  let ripped := ripDeclaredFields attrs
  let declared := if isAbstract then ripped.1 else []
  let attrs2 := if isAbstract then ripped.2 else attrs
  let nc := modelbaseNew declared attrs2
  MCls.mk nc.attrNames
    (merge_parent_settings behaviors (ownConfigsOf attrs2) basesConfigs nc.configs)
    nc.fields declared nc.proxy nc.nextId

def metabehavior_new (name : String) (bases : List BaseCls) (isAbstract : Bool)
    (attrs : List (String × PyAttr))
    (modelbaseNew : List (String × FieldObj) → List (String × PyAttr) → MCls)
    (behaviors : List String)
    (basesConfigs : List (List (String × List (String × String))))
    (mro : List ParentRec) : Except Unit MCls :=
  if basesCheck bases then Except.error ()
  else
    let nc := metabehavior_premerge isAbstract attrs modelbaseNew behaviors basesConfigs
    if !isAbstract then Except.ok (Behavior.modify_schema mro nc)
    else if nc.hasattr name then Except.ok nc
    else Except.ok (nc.setEmptyConfig name)

/-- The field name a behavior field ends up with on `cls`: the entry of the
configuration class when one is set, the behavior's default name otherwise
(behaviors.py lines 167-172). -/
def resolvedName (cls : MCls) (pname name : String) : String :=
  match cls.configLookup pname name with
  | some n => n
  | none => name

/-- The data of the model field that `cls` carries under attribute name `n`. -/
def MCls.fieldData (cls : MCls) (n : String) : Option FieldData :=
  (List.find? (fun p => p.1 == n) cls.fields).map (fun p => p.2.data)

/-- The steps of the two nested loops of `modify_schema`, flattened:
one `(parent name, declared name, field)` triple per declared field of each
entry of the method resolution order, in processing order. -/
def flatSteps (mro : List ParentRec) : List (String × String × FieldObj) :=
  mro.flatMap (fun P => (P.declared_fields.getD []).map (fun nf => (P.pname, nf.1, nf.2)))

def stepFold (cls : MCls) (s : String × String × FieldObj) : MCls :=
  modifySchemaField s.1 cls s.2.1 s.2.2

/-! ## The concrete behaviors' declared fields (behaviors.py lines 265-359)

The behavior classes are abstract, so when the module is imported the
metaclass rips their field attributes into `declared_fields`.  Each of these
field objects gets a small fixed object identity.
-/

def Timestampable.created_at_data : FieldData :=
  ⟨"DateTimeField", none, false, true, none, none⟩

def Timestampable.updated_at_data : FieldData :=
  ⟨"DateTimeField", none, true, false, none, none⟩

def Timestampable.declared_fields : List (String × FieldObj) :=
  [("created_at", ⟨0, Timestampable.created_at_data⟩),
   ("updated_at", ⟨1, Timestampable.updated_at_data⟩)]

def Publishable.publish_at_data : FieldData :=
  ⟨"DateTimeField", some FDefault.nowFn, false, false, none,
   some "Selecting a future date will automatically publish to the live site on that date."⟩

def Publishable.is_published_data : FieldData :=
  ⟨"BooleanField", some (FDefault.boolConst true), false, false, none,
   some "Unchecking this will take the entry off the live site regardless of publishing date"⟩

def Publishable.declared_fields : List (String × FieldObj) :=
  [("publish_at", ⟨2, Publishable.publish_at_data⟩),
   ("is_published", ⟨3, Publishable.is_published_data⟩)]

def SEO.declared_fields : List (String × FieldObj) :=
  [("seo_title", ⟨4, "CharField", none, false, false, some 255, none⟩),
   ("seo_description", ⟨5, "TextField", none, false, false, none, none⟩),
   ("seo_keywords", ⟨6, "TextField", none, false, false, none, none⟩)]

/-! ## Host-framework model: runtime field values

Time is modelled by an integer clock.  A field with `default=now` is
initialized to the instantiation time, `default=True` to the constant;
Django's `DateTimeField.pre_save` overwrites the stored value with the
current time when `auto_now` is set, or when `auto_now_add` is set and the
save is an insert (`add=True`), and keeps the value otherwise.
-/

inductive DVal where
  | timeV (t : Int)
  | boolV (b : Bool)
  | null
deriving DecidableEq

def fieldDefaultValue (f : FieldData) (t : Int) : DVal :=
  match f.default? with
  | some FDefault.nowFn => .timeV t
  | some (FDefault.boolConst b) => .boolV b
  | none => .null

def dateTimeField_pre_save (f : FieldData) (t : Int) (add : Bool) (cur : DVal) : DVal :=
  if f.auto_now || (f.auto_now_add && add) then .timeV t else cur

/-- The timestamp columns of one row of a model inheriting `Timestampable`. -/
structure TimestampableRow where
  created_at : DVal
  updated_at : DVal
deriving DecidableEq

/-- Saving such a row at time `t` (`add` = the save is the inserting one):
every field's `pre_save` runs on the stored value. -/
def Timestampable.save (t : Int) (add : Bool) (r : TimestampableRow) : TimestampableRow :=
  ⟨dateTimeField_pre_save Timestampable.created_at_data t add r.created_at,
   dateTimeField_pre_save Timestampable.updated_at_data t add r.updated_at⟩

/-- The publish-state columns of one row of a model inheriting `Publishable`. -/
structure PublishableRow where
  publish_at : Int
  is_published : Bool
deriving DecidableEq

/-! ## `PublishableManager.get_queryset` (behaviors.py lines 287-294)

```python
def get_queryset(self):
    queryset = super(PublishableManager, self).get_queryset()
    return queryset.filter(is_published=True, publish_at__lte=now)
```

The base manager's queryset is all rows of the model's table (`db`); the
filter's value for `publish_at__lte` is the *callable* `now`, which the ORM
calls when the queryset is evaluated, so the comparison uses the evaluation
time `t`.
-/

namespace PublishableManager

def get_queryset (db : List PublishableRow) (t : Int) : List PublishableRow :=
  db.filter (fun r => r.is_published && decide (r.publish_at ≤ t))

end PublishableManager

/-! ## Host-framework model: `ValidationError`

A Django `ValidationError` either carries a plain list of messages or a
dictionary from field names to message lists (`message_dict`).
`NON_FIELD_ERRORS` is the dictionary key `'__all__'`.
`ValidationError.update_error_dict(error_dict)` merges the error into an
accumulating dictionary: dictionary errors extend the entry of each of their
keys, plain errors extend the `NON_FIELD_ERRORS` entry.
-/

def NON_FIELD_ERRORS : String := "__all__"

inductive VErr where
  | msgs (ms : List String)
  | dict (d : List (String × List String))
deriving DecidableEq

/-- `errors.setdefault(k, []).extend(v)` on an (insertion-ordered,
duplicate-free) dictionary: extend the entry in place, or append a new one. -/
def extendKey : List (String × List String) → String → List String →
    List (String × List String)
  | [], k, v => [(k, v)]
  | p :: errs, k, v =>
    if p.1 == k then (p.1, p.2 ++ v) :: errs else p :: extendKey errs k v

/-- `for k, v in d.items(): errors.setdefault(k, []).extend(v)`. -/
def dictMerge (d : List (String × List String)) (errs : List (String × List String)) :
    List (String × List String) :=
  d.foldl (fun es p => extendKey es p.1 p.2) errs

def update_error_dict (e : VErr) (errs : List (String × List String)) :
    List (String × List String) :=
  match e with
  | .dict d => dictMerge d errs
  | .msgs ms => extendKey errs NON_FIELD_ERRORS ms

/-! ## `Validation` (behaviors.py lines 376-438)

An instance of a model inheriting `Validation` is summarized by what
`clean_fields` inspects:

* `superCleanFields` — the outcome of `super(Validation, self).clean_fields(exclude)`
  (Django's `Model.clean_fields`): `none` when it returns, `some d` when it
  raises `ValidationError(d)` — Django's field cleaning always raises the
  dictionary form, keyed by field names;
* `validateM` — the optional `validate` method: `none` when the model defines
  none, `some none` when calling it returns, `some (some e)` when it raises
  `e`;
* `fields` — `self._meta.fields`, each with its name and its optional
  `validate_<name>` method, encoded the same way.
-/

structure VField where
  name : String
  validateMethod : Option (Option VErr)
deriving DecidableEq

structure VInstance where
  superCleanFields : Option (List (String × List String))
  validateM : Option (Option VErr)
  fields : List VField
deriving DecidableEq

/-- The body of the `for f in self._meta.fields` loop of
`Validation.clean_fields` (behaviors.py lines 422-431): call the
`validate_<field>` method when one exists; merge a raised dictionary error
entry-wise, and append plain messages under the field's own name. -/
def fieldCleanStep (es : List (String × List String)) (f : VField) :
    List (String × List String) :=
  match f.validateMethod with
  | none => es
  | some none => es
  | some (some e) =>
    match e with
    | .dict d => dictMerge d es
    | .msgs ms => extendKey es f.name ms

namespace Validation

/--
```python
def clean_fields(self, exclude=None):
    errors = {}
    try:
        super(Validation, self).clean_fields(exclude)
    except ValidationError, e:
        errors = e.update_error_dict(errors)
    try:
        if hasattr(self, 'validate'):
            getattr(self, 'validate')()
    except ValidationError, e:
        errors = e.update_error_dict(errors)
    for f in self._meta.fields:
        try:
            if hasattr(self, 'validate_' + f.name):
                getattr(self, 'validate_' + f.name)()
        except ValidationError, e:
            if hasattr(e, 'message_dict'):
                for k, v in e.message_dict.items():
                    errors.setdefault(k, []).extend(v)
            else:
                errors.setdefault(f.name, []).extend(e.messages)
    if errors:
        raise ValidationError(errors)
```
`none` models a normal return, `some errs` the raised `ValidationError(errs)`.
-/
def clean_fields (m : VInstance) : Option (List (String × List String)) :=
  let errors : List (String × List String) := []
  let errors := match m.superCleanFields with
    | none => errors
    | some d => update_error_dict (.dict d) errors
  let errors := match m.validateM with
    | none => errors
    | some none => errors
    | some (some e) => update_error_dict e errors
  let errors := m.fields.foldl fieldCleanStep errors
  if errors.isEmpty then none else some errors

/--
```python
def save(self, *args, **kwargs):
    self.full_clean()
    super(Validation, self).save(*args, **kwargs)
```
`full_clean` is Django's validation pipeline (which consults the overridden
`clean_fields` among other steps); `superSave` is Django's `Model.save`,
writing the instance into the store `db`.  A raised `ValidationError`
propagates (first component `some e`) and the store is returned as it was.
-/
def save {M DB : Type} (full_clean : M → Option VErr) (superSave : M → DB → DB)
    (m : M) (db : DB) : Option VErr × DB :=
  match full_clean m with
  | some e => (some e, db)
  | none => (none, superSave m db)

end Validation

/-- The queryset methods an optional inner `QuerySet` class exposes. -/
def mmethods (q : Option QSClass) : List String :=
  match q with
  | some q => q.methods
  | none => []

/-- Modelled from the spec: `fusionbox.db.models.QuerySetManager` (imported
at behaviors.py line 11) is code of this repository that is not in the source
tree.  Per the spec it is "a manager that exposes a merged queryset class
assembled from the mixin hierarchy": its queryset is an instance of the
model's inner `QuerySet` class, exposing exactly that class's methods. -/
def QuerySetManager.get_queryset (modelQuerySet : Option QSClass) : Option QSClass :=
  modelQuerySet

/-! ### Expected message contributions of the validation sources

For stating the aggregation property of `Validation.clean_fields`, the
messages each source contributes under an error-dictionary key `k`:
a dictionary-form error contributes the messages of its entries at `k`, a
plain-message error contributes its messages at its default key
(`NON_FIELD_ERRORS` for `validate`, the field's name for a
`validate_<field>` method).
-/

def errContrib (e : VErr) (defaultKey k : String) : List String :=
  match e with
  | .dict d => (List.map (fun p => p.2) (List.filter (fun p => p.1 == k) d)).flatten
  | .msgs ms => if defaultKey = k then ms else []

def superMsgs (m : VInstance) (k : String) : List String :=
  match m.superCleanFields with
  | none => []
  | some d => errContrib (.dict d) NON_FIELD_ERRORS k

def validateMsgs (m : VInstance) (k : String) : List String :=
  match m.validateM with
  | some (some e) => errContrib e NON_FIELD_ERRORS k
  | _ => []

def fieldContrib (f : VField) (k : String) : List String :=
  match f.validateMethod with
  | some (some e) => errContrib e f.name k
  | _ => []

def fieldsMsgs (m : VInstance) (k : String) : List String :=
  (m.fields.map (fun f => fieldContrib f k)).flatten

/-- All messages stored under key `k` in an error dictionary. -/
def lookupMsgs (errs : List (String × List String)) (k : String) : List String :=
  (List.map (fun p => p.2) (List.filter (fun p => p.1 == k) errs)).flatten

/-- At least one of the three validation sources raises a `ValidationError`. -/
def raisesAny (m : VInstance) : Prop :=
  m.superCleanFields ≠ none ∨ (∃ e, m.validateM = some (some e)) ∨
    (∃ f ∈ m.fields, ∃ e, f.validateMethod = some (some e))

/-- The error dictionary after the `super().clean_fields` phase of
`Validation.clean_fields`. -/
def superErrs (m : VInstance) : List (String × List String) :=
  match m.superCleanFields with
  | none => []
  | some d => update_error_dict (.dict d) []

/-- The error dictionary after the `validate` phase of
`Validation.clean_fields`. -/
def preFieldErrs (m : VInstance) : List (String × List String) :=
  match m.validateM with
  | none => superErrs m
  | some none => superErrs m
  | some (some e) => update_error_dict e (superErrs m)

/-- The error dictionary `Validation.clean_fields` accumulates before the
final emptiness test. -/
def cleanErrsRaw (m : VInstance) : List (String × List String) :=
  m.fields.foldl fieldCleanStep (preFieldErrs m)

/-! ### Concrete example data (used by witnesses)

A concrete model `MyModel(FooBehavior, BarBehavior)` where `FooBehavior`
declares an integer field `bar` (renamed to `qux` by the model's inner
`FooBehavior` configuration class) and `BarBehavior` declares an integer
field `baz` (kept at its default name).
-/

def exFieldBar : FieldObj := ⟨0, "IntegerField", none, false, false, none, none⟩

def exFieldBaz : FieldObj := ⟨1, "IntegerField", none, false, false, none, none⟩

def exTitleData : FieldData := ⟨"CharField", none, false, false, some 255, none⟩

def exMro : List ParentRec :=
  [⟨"MyModel", some []⟩,
   ⟨"FooBehavior", some [("bar", exFieldBar)]⟩,
   ⟨"BarBehavior", some [("baz", exFieldBaz)]⟩]

def exAttrs : List (String × PyAttr) :=
  [("FooBehavior", PyAttr.configA [("bar", "qux")])]

def exMbn : List (String × FieldObj) → List (String × PyAttr) → MCls :=
  fun _ _ => ⟨["save", "FooBehavior", "BarBehavior"], [], [], [], false, 10⟩

def exBehaviors : List String := ["FooBehavior", "BarBehavior"]

def exNc : MCls := metabehavior_premerge false exAttrs exMbn exBehaviors []

/-- A class that already carries a `title` field, for the no-overwrite
witness. -/
def exCls8 : MCls :=
  ⟨["title", "FooBehavior", "BarBehavior"], [], [("title", ⟨5, exTitleData⟩)],
   [], false, 10⟩

/-! # Theorems -/

/-! ## Context lemmas -/

theorem any_frameSet (fr : Frame) (k : String) (v : PyVal) :
    List.any (frameSet fr k v) (fun p => p.1 == k) = true := by
  unfold frameSet
  by_cases h : List.any fr (fun p => p.1 == k) = true
  · rw [if_pos h, List.any_map]
    rcases List.any_eq_true.mp h with ⟨p, hp, hpk⟩
    refine List.any_eq_true.mpr ⟨p, hp, ?_⟩
    simp only [Function.comp_apply, if_pos hpk]
    exact beq_self_eq_true k
  · rw [if_neg h, List.any_append]
    simp

theorem frameGet_frameDel (fr : Frame) (k : String) :
    frameGet (frameDel fr k) k = none := by
  have h : List.find? (fun p => p.1 == k) (List.filter (fun p => !(p.1 == k)) fr) = none := by
    rw [List.find?_eq_none]
    intro x hx
    have hx2 := (List.mem_filter.mp hx).2
    simp only [Bool.not_eq_true'] at hx2
    simp [hx2]
  simp [frameGet, frameDel, h]

/-- C2: For every instance of a model inheriting the `Validation` behavior,
`save` always runs the full validation pipeline (`full_clean`) first; if
validation raises a `ValidationError`, the exception propagates uncaught to
the caller and the instance is not saved (the store is unchanged on error),
and if validation passes, the normal save proceeds. -/
theorem validation_save_spec {M DB : Type} (full_clean : M → Option VErr)
    (superSave : M → DB → DB) (m : M) (db : DB) :
    (∀ e, full_clean m = some e →
      Validation.save full_clean superSave m db = (some e, db)) ∧
    (full_clean m = none →
      Validation.save full_clean superSave m db = (none, superSave m db)) := by
  constructor
  · intro e h
    simp [Validation.save, h]
  · intro h
    simp [Validation.save, h]

theorem validation_save_spec_witness :
    Validation.save (fun n : Nat => if n = 0 then some (VErr.msgs ["bad"]) else none)
        (fun n (db : List Nat) => db ++ [n]) 0 [7] = (some (VErr.msgs ["bad"]), [7]) ∧
    Validation.save (fun n : Nat => if n = 0 then some (VErr.msgs ["bad"]) else none)
        (fun n (db : List Nat) => db ++ [n]) 1 [7] = (none, [7, 1]) :=
  ⟨(validation_save_spec (fun n : Nat => if n = 0 then some (VErr.msgs ["bad"]) else none)
      (fun n (db : List Nat) => db ++ [n]) 0 [7]).1 (VErr.msgs ["bad"]) rfl,
   (validation_save_spec (fun n : Nat => if n = 0 then some (VErr.msgs ["bad"]) else none)
      (fun n (db : List Nat) => db ++ [n]) 1 [7]).2 rfl⟩

/-- C7: Every invocation of the `uncaptcha` template tag returns the rendering
of the template `forms/fields/uncaptcha.html` with the context extended by a
`field` entry holding the `uncaptcha` field of the form given as argument when
one is given, and otherwise the `uncaptcha` field of the form stored under
`form` in the template context. -/
theorem uncaptcha_spec (render : String → Ctx → String) (context : Ctx) :
    (∀ f bf, f.getItem "uncaptcha" = some bf →
      (uncaptcha render context (some f)).map Prod.fst =
        some (render "forms/fields/uncaptcha.html"
          (ctxSet context "field" (PyVal.fieldV bf)))) ∧
    (∀ g bf, ctxGet context "form" = some (PyVal.formV g) →
      g.getItem "uncaptcha" = some bf →
      (uncaptcha render context none).map Prod.fst =
        some (render "forms/fields/uncaptcha.html"
          (ctxSet context "field" (PyVal.fieldV bf)))) := by
  have hdel : ∀ (c : Ctx) (v : PyVal),
      ∃ c2, ctxDel (ctxSet c "field" v) "field" = some c2 := by
    intro c v
    match c with
    | [] => exact ⟨[[]], rfl⟩
    | fr :: rest =>
      refine ⟨frameDel (frameSet fr "field" v) "field" :: rest, ?_⟩
      simp [ctxSet, ctxDel, any_frameSet]
  constructor
  · intro f bf hf
    rcases hdel context (PyVal.fieldV bf) with ⟨c2, hc2⟩
    simp [uncaptcha, hf, hc2]
  · intro g bf hg hf
    rcases hdel context (PyVal.fieldV bf) with ⟨c2, hc2⟩
    simp [uncaptcha, hg, hf, hc2]

theorem uncaptcha_spec_witness :
    (uncaptcha (fun tpl _ => tpl) [[]] (some ⟨1, ["uncaptcha"]⟩)).map Prod.fst =
        some "forms/fields/uncaptcha.html" ∧
    (uncaptcha (fun tpl _ => tpl)
        [[("form", PyVal.formV ⟨1, ["uncaptcha"]⟩)]] none).map Prod.fst =
      some "forms/fields/uncaptcha.html" :=
  ⟨(uncaptcha_spec (fun tpl _ => tpl) [[]]).1 ⟨1, ["uncaptcha"]⟩ ⟨1, "uncaptcha"⟩ rfl,
   (uncaptcha_spec (fun tpl _ => tpl) [[("form", PyVal.formV ⟨1, ["uncaptcha"]⟩)]]).2
     ⟨1, ["uncaptcha"]⟩ ⟨1, "uncaptcha"⟩ rfl rfl⟩

/-- C10 (counterexample): with the `field` entry sitting in an *outer* frame
of the context stack, the entry is still present — and restored to
visibility — after the tag returns, refuting the claim that the context no
longer contains a `field` entry and that a previous value is always lost. -/
theorem uncaptcha_field_cex :
    (uncaptcha (fun _ _ => "") [[], [("field", PyVal.strV "old")]]
        (some ⟨1, ["uncaptcha"]⟩)).map (fun p => ctxGet p.2 "field") =
      some (some (PyVal.strV "old")) := rfl

/-- C10 (amended): after the tag returns, the *innermost* frame of the
context no longer contains a `field` entry — the tag deletes the `field` key
it set from the innermost frame, so a `field` value present in the innermost
frame before the invocation is lost rather than restored — while the outer
frames are left untouched (so a `field` entry in an outer frame remains
visible). -/
theorem uncaptcha_deletes_innermost_field (render : String → Ctx → String)
    (context : Ctx) (form : Option PyForm) (r : String) (c : Ctx)
    (h : uncaptcha render context form = some (r, c)) :
    ∀ fr rest, c = fr :: rest → frameGet fr "field" = none ∧ rest = context.tail := by
  unfold uncaptcha at h
  rcases hf : (match form with
    | some f => f.getItem "uncaptcha"
    | none =>
      match ctxGet context "form" with
      | some (.formV f) => f.getItem "uncaptcha"
      | _ => none) with _ | bf
  · rw [hf] at h
    simp at h
  · rw [hf] at h
    simp only at h
    match context with
    | [] =>
      simp [ctxSet, ctxDel, frameDel] at h
      intro fr rest hc
      rw [← h.2] at hc
      cases hc
      exact ⟨rfl, rfl⟩
    | fr0 :: rest0 =>
      simp only [ctxSet, ctxDel, any_frameSet, if_pos, Option.some.injEq,
        Prod.mk.injEq] at h
      intro fr rest hc
      rw [← h.2] at hc
      cases hc
      exact ⟨frameGet_frameDel _ _, rfl⟩

theorem uncaptcha_deletes_innermost_field_witness :
    frameGet [] "field" = none ∧
      ([[("field", PyVal.strV "old")]] : Ctx) =
        ([[("field", PyVal.strV "x")], [("field", PyVal.strV "old")]] : Ctx).tail :=
  uncaptcha_deletes_innermost_field (fun _ _ => "")
    [[("field", PyVal.strV "x")], [("field", PyVal.strV "old")]]
    (some ⟨1, ["uncaptcha"]⟩) "" [[], [("field", PyVal.strV "old")]] rfl
    [] [[("field", PyVal.strV "old")]] rfl

/-! ## Timestampable -/

theorem timestampable_fold_aux (ts : List Int) (r : TimestampableRow) :
    (ts.foldl (fun r t => Timestampable.save t false r) r).created_at = r.created_at ∧
    (ts.foldl (fun r t => Timestampable.save t false r) r).updated_at =
      ts.foldl (fun _ t => DVal.timeV t) r.updated_at := by
  induction ts generalizing r with
  | nil => exact ⟨rfl, rfl⟩
  | cons t ts ih =>
    simp only [List.foldl_cons]
    have h := ih (Timestampable.save t false r)
    exact ⟨h.1, h.2⟩

theorem foldl_last_timeV (ts : List Int) (t0 : Int) :
    ts.foldl (fun _ t => DVal.timeV t) (DVal.timeV t0) =
      DVal.timeV (ts.foldl (fun _ t => t) t0) := by
  induction ts generalizing t0 with
  | nil => rfl
  | cons t ts ih => exact ih t

/-- C6: For every instance of a model inheriting the `Timestampable`
behavior, the `created_at` field is set to the current time by the creating
(inserting) save and left unchanged by every subsequent save, while the
`updated_at` field is set to the current time on every save. -/
theorem timestampable_save_spec (t t0 : Int) (ts : List Int)
    (r r0 : TimestampableRow) :
    (Timestampable.save t true r).created_at = DVal.timeV t ∧
    (Timestampable.save t false r).created_at = r.created_at ∧
    (Timestampable.save t true r).updated_at = DVal.timeV t ∧
    (Timestampable.save t false r).updated_at = DVal.timeV t ∧
    (List.foldl (fun r t => Timestampable.save t false r)
        (Timestampable.save t0 true r0) ts).created_at = DVal.timeV t0 ∧
    (List.foldl (fun r t => Timestampable.save t false r)
        (Timestampable.save t0 true r0) ts).updated_at =
      DVal.timeV (ts.foldl (fun _ t => t) t0) := by
  have h := timestampable_fold_aux ts (Timestampable.save t0 true r0)
  refine ⟨rfl, rfl, rfl, rfl, h.1, ?_⟩
  rw [h.2]
  exact foldl_last_timeV ts t0

/-! ## The base-order check -/

theorem basesCheck_found_mono (l : List BaseCls) (st : Bool × Bool)
    (h : st.1 = true) : (l.foldl basesCheckStep st).1 = true := by
  induction l generalizing st with
  | nil => exact h
  | cons b l ih =>
    apply ih
    unfold basesCheckStep
    split
    · exact h
    · simp [h]

theorem basesCheck_raised_mono (l : List BaseCls) (st : Bool × Bool)
    (h : st.2 = true) : (l.foldl basesCheckStep st).2 = true := by
  induction l generalizing st with
  | nil => exact h
  | cons b l ih =>
    apply ih
    unfold basesCheckStep
    split
    · exact h
    · simp [h]

/-- C9: When a model class is constructed with a base list in which some base
`X` whose method resolution order contains `models.Model` but no class from
the `fusionbox.behaviors` module precedes some base `Y` whose method
resolution order contains `Behavior`, class construction raises
`ImproperlyConfigured` instead of producing a class. -/
theorem basesCheckStep_eq (st : Bool × Bool) (b : BaseCls) (hb : b.isNewStyle = true) :
    basesCheckStep st b =
      (st.1 || (!(b.mroModules.contains "fusionbox.behaviors") && b.hasModel),
       st.2 || (st.1 && b.hasBehavior)) := by
  unfold basesCheckStep
  rw [hb]
  simp

theorem metabehavior_base_order_raises
    (name : String) (isAbstract : Bool) (attrs : List (String × PyAttr))
    (modelbaseNew : List (String × FieldObj) → List (String × PyAttr) → MCls)
    (behaviors : List String)
    (basesConfigs : List (List (String × List (String × String))))
    (mro : List ParentRec)
    (l1 l2 l3 : List BaseCls) (X Y : BaseCls)
    (hX1 : X.isNewStyle = true) (hX2 : X.hasModel = true)
    (hX3 : X.mroModules.contains "fusionbox.behaviors" = false)
    (hY1 : Y.isNewStyle = true) (hY2 : Y.hasBehavior = true) :
    metabehavior_new name (l1 ++ X :: l2 ++ Y :: l3) isAbstract attrs
      modelbaseNew behaviors basesConfigs mro = Except.error () := by
  have hcheck : basesCheck (l1 ++ X :: l2 ++ Y :: l3) = true := by
    unfold basesCheck
    rw [List.foldl_append, List.foldl_cons, List.foldl_append, List.foldl_cons]
    apply basesCheck_raised_mono
    have hfound : (basesCheckStep (List.foldl basesCheckStep (false, false) l1) X).1
        = true := by
      rw [basesCheckStep_eq _ _ hX1]
      simp only [hX3, hX2]
      simp
    have hfound2 := basesCheck_found_mono l2 _ hfound
    rw [basesCheckStep_eq _ _ hY1]
    simp [hY2, hfound2]
  unfold metabehavior_new
  rw [if_pos hcheck]

theorem metabehavior_base_order_raises_witness :
    metabehavior_new "MyModel"
        [⟨true, ["myapp.models", "django.db.models.base", "__builtin__"], false, true⟩,
         ⟨true, ["fusionbox.behaviors", "django.db.models.base", "__builtin__"], true, true⟩]
        false [] (fun _ _ => ⟨[], [], [], [], false, 0⟩) [] [] [] =
      Except.error () :=
  metabehavior_base_order_raises "MyModel" false []
    (fun _ _ => ⟨[], [], [], [], false, 0⟩) [] [] [] [] [] []
    ⟨true, ["myapp.models", "django.db.models.base", "__builtin__"], false, true⟩
    ⟨true, ["fusionbox.behaviors", "django.db.models.base", "__builtin__"], true, true⟩
    rfl rfl (by decide) rfl rfl

/-! ## QuerySet merging -/

/-- C5: For every model class inheriting `QuerySetManagerModel`, its inner
`QuerySet` class is the merge, via multiple inheritance, of the `QuerySet`
class declared on the class itself (when declared) together with the
`QuerySet` classes of all of its direct bases that have one, so the manager's
queryset exposes every queryset method defined anywhere in the mixin
hierarchy. -/
theorem mem_flatten_map_methods (m : String) (qs : List QSClass) :
    m ∈ (List.map QSClass.methods qs).flatten ↔ ∃ q ∈ qs, m ∈ q.methods := by
  simp only [List.mem_flatten, List.mem_map]
  constructor
  · rintro ⟨l, ⟨q, hq, rfl⟩, hml⟩
    exact ⟨q, hq, hml⟩
  · rintro ⟨q, hq, hml⟩
    exact ⟨q.methods, ⟨q, hq, rfl⟩, hml⟩

theorem mem_filterMap_id (q : QSClass) (l : List (Option QSClass)) :
    q ∈ List.filterMap id l ↔ some q ∈ l := by
  constructor
  · intro hq
    rcases List.mem_filterMap.mp hq with ⟨oq, hoq, hid⟩
    cases oq with
    | none => cases hid
    | some q' =>
      cases hid
      exact hoq
  · intro hq
    exact List.mem_filterMap.mpr ⟨some q, hq, rfl⟩

theorem qsm_merge_spec (ownQS : Option QSClass) (basesQS : List (Option QSClass))
    (inheritedQS : Option QSClass)
    (h : ownQS.isSome = true ∨ ∃ q ∈ basesQS, q.isSome = true) :
    ∀ m, m ∈ mmethods (QuerySetManager.get_queryset
        (qsm_merge_parent_settings ownQS basesQS inheritedQS)) ↔
      m ∈ mmethods ownQS ∨ ∃ q ∈ basesQS, m ∈ mmethods q := by
  intro m
  cases ownQS with
  | some q0 =>
    have hres : QuerySetManager.get_queryset
        (qsm_merge_parent_settings (some q0) basesQS inheritedQS) =
        some ⟨(List.map QSClass.methods (q0 :: List.filterMap id basesQS)).flatten⟩ := by
      unfold qsm_merge_parent_settings QuerySetManager.get_queryset
      simp
    rw [hres]
    simp only [mmethods]
    rw [mem_flatten_map_methods]
    constructor
    · rintro ⟨q, hq, hml⟩
      rcases List.mem_cons.mp hq with rfl | hq2
      · exact Or.inl hml
      · exact Or.inr ⟨some q, (mem_filterMap_id q basesQS).mp hq2, hml⟩
    · rintro (hml | ⟨oq, hoq, hml⟩)
      · exact ⟨q0, List.mem_cons_self q0 _, hml⟩
      · cases oq with
        | none => cases hml
        | some q =>
          exact ⟨q, List.mem_cons_of_mem _ ((mem_filterMap_id q basesQS).mpr hoq), hml⟩
  | none =>
    obtain ⟨q, hq⟩ : ∃ q : QSClass, some q ∈ basesQS := by
      rcases h with h | ⟨oq, hoq, hsome⟩
      · simp at h
      · cases oq with
        | none => simp at hsome
        | some q => exact ⟨q, hoq⟩
    have hmem : q ∈ List.filterMap (@id (Option QSClass)) basesQS :=
      (mem_filterMap_id q basesQS).mpr hq
    have hne : (List.filterMap (@id (Option QSClass)) basesQS).isEmpty = false := by
      cases hl : List.filterMap (@id (Option QSClass)) basesQS with
      | nil =>
        rw [hl] at hmem
        cases hmem
      | cons a l => rfl
    have hres : QuerySetManager.get_queryset
        (qsm_merge_parent_settings none basesQS inheritedQS) =
        some ⟨(List.map QSClass.methods (List.filterMap id basesQS)).flatten⟩ := by
      unfold qsm_merge_parent_settings QuerySetManager.get_queryset
      simp [hne]
    rw [hres]
    simp only [mmethods]
    rw [mem_flatten_map_methods]
    constructor
    · rintro ⟨q2, hq2, hml⟩
      exact Or.inr ⟨some q2, (mem_filterMap_id q2 basesQS).mp hq2, hml⟩
    · rintro (hml | ⟨oq, hoq, hml⟩)
      · cases hml
      · cases oq with
        | none => cases hml
        | some q2 => exact ⟨q2, (mem_filterMap_id q2 basesQS).mpr hoq, hml⟩

theorem qsm_merge_spec_witness :
    "get_active" ∈ mmethods (QuerySetManager.get_queryset
        (qsm_merge_parent_settings (some ⟨["get_inactive"]⟩)
          [some ⟨["get_active"]⟩, none] none)) ↔
      "get_active" ∈ mmethods (some (⟨["get_inactive"]⟩ : QSClass)) ∨
        ∃ q ∈ [some (⟨["get_active"]⟩ : QSClass), none], "get_active" ∈ mmethods q :=
  qsm_merge_spec (some ⟨["get_inactive"]⟩) [some ⟨["get_active"]⟩, none] none
    (Or.inl rfl) "get_active"

/-! ## `modify_schema` machinery -/

theorem hasattr_false_iff (cls : MCls) (a : String) :
    cls.hasattr a = false ↔ a ∉ cls.attrNames := by
  unfold MCls.hasattr
  rw [Bool.eq_false_iff]
  exact not_congr List.elem_iff

theorem stepFold_eq_of_hasattr (cls : MCls) (s : String × String × FieldObj)
    (hp : cls.hasattr s.1 = true) :
    stepFold cls s =
      if cls.hasattr (resolvedName cls s.1 s.2.1) then cls
      else cls.addFieldCopy (resolvedName cls s.1 s.2.1) s.2.2 := by
  unfold stepFold modifySchemaField resolvedName
  rw [if_pos hp]

theorem stepFold_eq_of_not_hasattr (cls : MCls) (s : String × String × FieldObj)
    (hp : cls.hasattr s.1 = false) :
    stepFold cls s =
      if (cls.setEmptyConfig s.1).hasattr (resolvedName cls s.1 s.2.1) then
        cls.setEmptyConfig s.1
      else (cls.setEmptyConfig s.1).addFieldCopy (resolvedName cls s.1 s.2.1) s.2.2 := by
  unfold stepFold modifySchemaField resolvedName
  rw [hp]
  simp only [Bool.false_eq_true, if_false]
  rfl

theorem stepFold_configs (cls : MCls) (s : String × String × FieldObj) :
    (stepFold cls s).configs = cls.configs := by
  by_cases hp : cls.hasattr s.1 = true
  · rw [stepFold_eq_of_hasattr cls s hp]
    split <;> rfl
  · rw [stepFold_eq_of_not_hasattr cls s (Bool.eq_false_iff.mpr hp)]
    split <;> rfl

theorem stepFold_proxy (cls : MCls) (s : String × String × FieldObj) :
    (stepFold cls s).proxy = cls.proxy := by
  by_cases hp : cls.hasattr s.1 = true
  · rw [stepFold_eq_of_hasattr cls s hp]
    split <;> rfl
  · rw [stepFold_eq_of_not_hasattr cls s (Bool.eq_false_iff.mpr hp)]
    split <;> rfl

theorem stepFold_nextId_le (cls : MCls) (s : String × String × FieldObj) :
    cls.nextId ≤ (stepFold cls s).nextId := by
  by_cases hp : cls.hasattr s.1 = true
  · rw [stepFold_eq_of_hasattr cls s hp]
    split
    · exact le_refl _
    · exact Nat.le_succ _
  · rw [stepFold_eq_of_not_hasattr cls s (Bool.eq_false_iff.mpr hp)]
    split
    · exact le_refl _
    · exact Nat.le_succ _

theorem stepFold_attr_mono (cls : MCls) (s : String × String × FieldObj) (a : String)
    (h : a ∈ cls.attrNames) : a ∈ (stepFold cls s).attrNames := by
  by_cases hp : cls.hasattr s.1 = true
  · rw [stepFold_eq_of_hasattr cls s hp]
    split
    · exact h
    · exact List.mem_append_left _ h
  · rw [stepFold_eq_of_not_hasattr cls s (Bool.eq_false_iff.mpr hp)]
    split
    · exact List.mem_append_left _ h
    · exact List.mem_append_left _ (List.mem_append_left _ h)

theorem stepFold_attr_sub (cls : MCls) (s : String × String × FieldObj) (a : String)
    (h : a ∈ (stepFold cls s).attrNames) :
    a ∈ cls.attrNames ∨ a = s.1 ∨ a = resolvedName cls s.1 s.2.1 := by
  by_cases hp : cls.hasattr s.1 = true
  · rw [stepFold_eq_of_hasattr cls s hp] at h
    split at h
    · exact Or.inl h
    · rcases List.mem_append.mp h with h | h
      · exact Or.inl h
      · rcases List.mem_singleton.mp h with rfl
        exact Or.inr (Or.inr rfl)
  · rw [stepFold_eq_of_not_hasattr cls s (Bool.eq_false_iff.mpr hp)] at h
    split at h
    · rcases List.mem_append.mp h with h | h
      · exact Or.inl h
      · exact Or.inr (Or.inl (List.mem_singleton.mp h))
    · rcases List.mem_append.mp h with h | h
      · rcases List.mem_append.mp h with h | h
        · exact Or.inl h
        · exact Or.inr (Or.inl (List.mem_singleton.mp h))
      · exact Or.inr (Or.inr (List.mem_singleton.mp h))

theorem stepFold_hasattr_mono (cls : MCls) (s : String × String × FieldObj) (a : String)
    (h : cls.hasattr a = true) : (stepFold cls s).hasattr a = true :=
  List.elem_iff.mpr (stepFold_attr_mono cls s a (List.elem_iff.mp h))

theorem resolvedName_congr (c1 c2 : MCls) (h : c1.configs = c2.configs)
    (p n : String) : resolvedName c1 p n = resolvedName c2 p n := by
  unfold resolvedName MCls.configLookup
  rw [h]

theorem stepFold_fields_ext (cls : MCls) (s : String × String × FieldObj) :
    (stepFold cls s).fields = cls.fields ∨
      ((stepFold cls s).fields =
          cls.fields ++ [(resolvedName cls s.1 s.2.1, ⟨cls.nextId, s.2.2.data⟩)] ∧
        resolvedName cls s.1 s.2.1 ∉ cls.attrNames) := by
  by_cases hp : cls.hasattr s.1 = true
  · rw [stepFold_eq_of_hasattr cls s hp]
    by_cases hn : cls.hasattr (resolvedName cls s.1 s.2.1) = true
    · rw [if_pos hn]
      exact Or.inl rfl
    · rw [if_neg hn]
      exact Or.inr ⟨rfl, (hasattr_false_iff cls _).mp (Bool.eq_false_iff.mpr hn)⟩
  · rw [stepFold_eq_of_not_hasattr cls s (Bool.eq_false_iff.mpr hp)]
    by_cases hn : (cls.setEmptyConfig s.1).hasattr (resolvedName cls s.1 s.2.1) = true
    · rw [if_pos hn]
      exact Or.inl rfl
    · rw [if_neg hn]
      refine Or.inr ⟨rfl, ?_⟩
      have := (hasattr_false_iff _ _).mp (Bool.eq_false_iff.mpr hn)
      exact fun hm => this (List.mem_append_left _ hm)

/-- Under the freshness conditions, a step adds exactly its field, as a copy
with the next fresh object identity, under its resolved name. -/
theorem stepFold_adds (cls : MCls) (s : String × String × FieldObj)
    (hT : cls.hasattr (resolvedName cls s.1 s.2.1) = false)
    (hN : resolvedName cls s.1 s.2.1 ≠ s.1) :
    (stepFold cls s).fields =
        cls.fields ++ [(resolvedName cls s.1 s.2.1, ⟨cls.nextId, s.2.2.data⟩)] ∧
      resolvedName cls s.1 s.2.1 ∈ (stepFold cls s).attrNames := by
  by_cases hp : cls.hasattr s.1 = true
  · rw [stepFold_eq_of_hasattr cls s hp, if_neg (by simp [hT])]
    exact ⟨rfl, List.mem_append_right _ (List.mem_singleton.mpr rfl)⟩
  · rw [stepFold_eq_of_not_hasattr cls s (Bool.eq_false_iff.mpr hp)]
    have hn : (cls.setEmptyConfig s.1).hasattr (resolvedName cls s.1 s.2.1) = false := by
      rw [hasattr_false_iff]
      intro hm
      rcases List.mem_append.mp hm with hm | hm
      · exact (hasattr_false_iff cls _).mp hT hm
      · exact hN (List.mem_singleton.mp hm)
    rw [if_neg (by simp [hn])]
    exact ⟨rfl, List.mem_append_right _ (List.mem_singleton.mpr rfl)⟩

theorem foldl_stepFold_configs (steps : List (String × String × FieldObj)) (cls : MCls) :
    (List.foldl stepFold cls steps).configs = cls.configs := by
  induction steps generalizing cls with
  | nil => rfl
  | cons s steps ih =>
    rw [List.foldl_cons, ih, stepFold_configs]

theorem foldl_stepFold_proxy (steps : List (String × String × FieldObj)) (cls : MCls) :
    (List.foldl stepFold cls steps).proxy = cls.proxy := by
  induction steps generalizing cls with
  | nil => rfl
  | cons s steps ih =>
    rw [List.foldl_cons, ih, stepFold_proxy]

theorem foldl_stepFold_nextId_le (steps : List (String × String × FieldObj)) (cls : MCls) :
    cls.nextId ≤ (List.foldl stepFold cls steps).nextId := by
  induction steps generalizing cls with
  | nil => exact le_refl _
  | cons s steps ih =>
    rw [List.foldl_cons]
    exact le_trans (stepFold_nextId_le cls s) (ih (stepFold cls s))

theorem foldl_stepFold_attr_mono (steps : List (String × String × FieldObj))
    (cls : MCls) (a : String) (h : a ∈ cls.attrNames) :
    a ∈ (List.foldl stepFold cls steps).attrNames := by
  induction steps generalizing cls with
  | nil => exact h
  | cons s steps ih =>
    rw [List.foldl_cons]
    exact ih (stepFold cls s) (stepFold_attr_mono cls s a h)

theorem foldl_stepFold_ext (steps : List (String × String × FieldObj)) (cls : MCls) :
    ∃ l, (List.foldl stepFold cls steps).fields = cls.fields ++ l ∧
      ∀ nf ∈ l, nf.1 ∉ cls.attrNames ∧ cls.nextId ≤ nf.2.fid := by
  induction steps generalizing cls with
  | nil => exact ⟨[], by simp, by simp⟩
  | cons s steps ih =>
    obtain ⟨l, hl, hprop⟩ := ih (stepFold cls s)
    rcases stepFold_fields_ext cls s with hc | ⟨hc, hfresh⟩
    · refine ⟨l, ?_, ?_⟩
      · rw [List.foldl_cons, hl, hc]
      · intro nf hnf
        have h2 := hprop nf hnf
        exact ⟨fun hm => h2.1 (stepFold_attr_mono cls s _ hm),
          le_trans (stepFold_nextId_le cls s) h2.2⟩
    · refine ⟨(resolvedName cls s.1 s.2.1, ⟨cls.nextId, s.2.2.data⟩) :: l, ?_, ?_⟩
      · rw [List.foldl_cons, hl, hc, List.append_assoc]
        rfl
      · intro nf hnf
        rcases List.mem_cons.mp hnf with rfl | hnf2
        · exact ⟨hfresh, le_refl _⟩
        · have h2 := hprop nf hnf2
          exact ⟨fun hm => h2.1 (stepFold_attr_mono cls s _ hm),
            le_trans (stepFold_nextId_le cls s) h2.2⟩

theorem modify_schema_eq_fold (mro : List ParentRec) (cls : MCls)
    (h : cls.proxy = false) :
    Behavior.modify_schema mro cls = List.foldl stepFold cls (flatSteps mro) := by
  induction mro generalizing cls with
  | nil => rfl
  | cons P mro ih =>
    unfold Behavior.modify_schema at ih ⊢
    simp only [List.foldl_cons]
    have hstep : (if cls.proxy = true then cls
        else
          match P.declared_fields with
          | none => cls
          | some decl =>
            decl.foldl (fun c nf => modifySchemaField P.pname c nf.1 nf.2) cls) =
        List.foldl stepFold cls
          ((P.declared_fields.getD []).map (fun nf => (P.pname, nf.1, nf.2))) := by
      rw [if_neg (by simp [h])]
      cases hd : P.declared_fields with
      | none => rfl
      | some decl =>
        rw [Option.getD_some, List.foldl_map]
        rfl
    rw [hstep]
    have hflat : flatSteps (P :: mro) =
        ((P.declared_fields.getD []).map (fun nf => (P.pname, nf.1, nf.2))) ++
          flatSteps mro := by
      unfold flatSteps
      rw [List.flatMap_cons]
    rw [hflat, List.foldl_append]
    exact ih _ (by rw [foldl_stepFold_proxy, h])

/-- The crux: when every resolved target name is fresh, pairwise distinct and
distinct from every behavior name involved, the fold installs every behavior
field under its resolved name with the declared field's data. -/
theorem foldl_stepFold_adds (steps : List (String × String × FieldObj)) (cls : MCls)
    (hT : ∀ s ∈ steps, cls.hasattr (resolvedName cls s.1 s.2.1) = false)
    (hND : (steps.map (fun s => resolvedName cls s.1 s.2.1)).Nodup)
    (hN : ∀ s ∈ steps, ∀ s2 ∈ steps, resolvedName cls s.1 s.2.1 ≠ s2.1)
    (hF : ∀ nf ∈ cls.fields, cls.hasattr nf.1 = true) :
    ∀ s ∈ steps, (List.foldl stepFold cls steps).fieldData
      (resolvedName cls s.1 s.2.1) = some s.2.2.data := by
  induction steps generalizing cls with
  | nil =>
    intro s hs
    cases hs
  | cons s0 rest ih =>
    have hT0 := hT s0 (List.mem_cons_self s0 rest)
    have hN00 := hN s0 (List.mem_cons_self s0 rest) s0 (List.mem_cons_self s0 rest)
    obtain ⟨hstep, hattr0⟩ := stepFold_adds cls s0 hT0 hN00
    have hcfg : (stepFold cls s0).configs = cls.configs := stepFold_configs cls s0
    have hrn : ∀ p n, resolvedName (stepFold cls s0) p n = resolvedName cls p n :=
      fun p n => resolvedName_congr _ _ hcfg p n
    have hndcons := hND
    rw [List.map_cons, List.nodup_cons] at hndcons
    intro s hs
    rcases List.mem_cons.mp hs with rfl | hs2
    · rw [List.foldl_cons]
      obtain ⟨l, hl, _⟩ := foldl_stepFold_ext rest (stepFold cls s)
      unfold MCls.fieldData
      rw [hl, hstep, List.append_assoc, List.find?_append]
      have hnone : List.find? (fun p => p.1 == resolvedName cls s.1 s.2.1) cls.fields
          = none := by
        rw [List.find?_eq_none]
        intro x hx hbx
        have hx1 : x.1 = resolvedName cls s.1 s.2.1 := by
          exact eq_of_beq hbx
        have := hF x hx
        rw [hx1] at this
        rw [this] at hT0
        cases hT0
      rw [hnone]
      simp
    · rw [List.foldl_cons, ← hrn s.1 s.2.1]
      apply ih (stepFold cls s0)
      · intro t ht
        rw [hrn]
        rw [hasattr_false_iff]
        intro hm
        rcases stepFold_attr_sub cls s0 _ hm with hm | hm | hm
        · exact (hasattr_false_iff cls _).mp
            (hT t (List.mem_cons_of_mem s0 ht)) hm
        · exact hN t (List.mem_cons_of_mem s0 ht) s0 (List.mem_cons_self s0 rest) hm
        · exact hndcons.1 (hm ▸ List.mem_map.mpr ⟨t, ht, rfl⟩)
      · have : (rest.map fun s => resolvedName (stepFold cls s0) s.1 s.2.1) =
            rest.map fun s => resolvedName cls s.1 s.2.1 := by
          apply List.map_congr_left
          intro t ht
          exact hrn t.1 t.2.1
        rw [this]
        exact hndcons.2
      · intro t ht t2 ht2
        rw [hrn]
        exact hN t (List.mem_cons_of_mem s0 ht) t2 (List.mem_cons_of_mem s0 ht2)
      · intro nf hnf
        rw [hstep] at hnf
        rcases List.mem_append.mp hnf with hnf | hnf
        · exact stepFold_hasattr_mono cls s0 _ (hF nf hnf)
        · rcases List.mem_singleton.mp hnf with rfl
          exact List.elem_iff.mpr hattr0
      · exact hs2

theorem mem_flatSteps (mro : List ParentRec) (P : ParentRec)
    (d : List (String × FieldObj)) (nf : String × FieldObj)
    (hP : P ∈ mro) (hd : P.declared_fields = some d) (hnf : nf ∈ d) :
    (P.pname, nf.1, nf.2) ∈ flatSteps mro := by
  unfold flatSteps
  refine List.mem_flatMap.mpr ⟨P, hP, ?_⟩
  rw [hd, Option.getD_some]
  exact List.mem_map.mpr ⟨nf, hnf, rfl⟩

/-! ## `merge_parent_settings` lookup -/

theorem lookupConfig_setConfig (cs : List (String × List (String × String)))
    (b B : String) (m : List (String × String)) :
    lookupConfig (setConfig cs b m) B = if b = B then some m else lookupConfig cs B := by
  induction cs with
  | nil =>
    by_cases h : b = B
    · subst h
      simp [setConfig, lookupConfig]
    · simp [setConfig, lookupConfig, List.find?_cons_of_neg, h]
  | cons p cs ih =>
    unfold setConfig
    by_cases hp : p.1 = b
    · rw [if_pos (beq_iff_eq.mpr hp)]
      by_cases h : b = B
      · subst h
        unfold lookupConfig
        rw [List.find?_cons_of_pos _ (by simp)]
        simp
      · rw [if_neg h]
        unfold lookupConfig
        rw [List.find?_cons_of_neg _ (by simp [h]),
          List.find?_cons_of_neg _ (by simp [hp, h])]
    · rw [if_neg (by simp [hp])]
      by_cases h2 : p.1 = B
      · have hbB : b ≠ B := fun he => hp (h2.trans he.symm)
        rw [if_neg hbB]
        unfold lookupConfig
        rw [List.find?_cons_of_pos _ (by simp [h2]),
          List.find?_cons_of_pos _ (by simp [h2])]
      · unfold lookupConfig at ih ⊢
        rw [List.find?_cons_of_neg _ (by simp [h2]),
          List.find?_cons_of_neg _ (by simp [h2])]
        exact ih

theorem mergeStep_lookup_self (own : List (String × List (String × String)))
    (bcs : List (List (String × List (String × String))))
    (acc : List (String × List (String × String))) (B : String)
    (m : List (String × String)) (hOwn : lookupConfig own B = some m) :
    ∃ rest, lookupConfig (mergeStep own bcs acc B) B = some (m ++ rest) := by
  unfold mergeStep
  rw [hOwn]
  simp only [List.filterMap_cons, id]
  refine ⟨(List.filterMap id (bcs.map (fun bc => lookupConfig bc B))).flatten, ?_⟩
  rw [if_neg (by simp), lookupConfig_setConfig, if_pos rfl, List.flatten_cons]

theorem mergeStep_lookup_ne (own : List (String × List (String × String)))
    (bcs : List (List (String × List (String × String))))
    (acc : List (String × List (String × String))) (b B : String) (h : b ≠ B) :
    lookupConfig (mergeStep own bcs acc b) B = lookupConfig acc B := by
  unfold mergeStep
  cases lookupConfig own b with
  | none =>
    simp only
    split
    · rfl
    · rw [lookupConfig_setConfig, if_neg h]
  | some m =>
    simp only
    split
    · rfl
    · rw [lookupConfig_setConfig, if_neg h]

theorem merge_lookup (behaviors : List String)
    (own : List (String × List (String × String)))
    (bcs : List (List (String × List (String × String))))
    (cs0 : List (String × List (String × String))) (B : String)
    (m : List (String × String)) (hB : B ∈ behaviors)
    (hOwn : lookupConfig own B = some m) :
    ∃ rest, lookupConfig (merge_parent_settings behaviors own bcs cs0) B =
      some (m ++ rest) := by
  unfold merge_parent_settings
  induction behaviors generalizing cs0 with
  | nil => cases hB
  | cons b bs ih =>
    rw [List.foldl_cons]
    by_cases hmem : B ∈ bs
    · exact ih _ hmem
    · have hbB : b = B := by
        rcases List.mem_cons.mp hB with h | h
        · exact h.symm
        · exact absurd h hmem
      subst hbB
      obtain ⟨rest, hres⟩ := mergeStep_lookup_self own bcs cs0 b m hOwn
      refine ⟨rest, ?_⟩
      have hpres : ∀ (l : List String) acc, b ∉ l →
          lookupConfig (List.foldl (mergeStep own bcs) acc l) b = lookupConfig acc b := by
        intro l
        induction l with
        | nil => intro acc _; rfl
        | cons x xs ihx =>
          intro acc hx
          rw [List.foldl_cons, ihx _ (fun hm => hx (List.mem_cons_of_mem x hm)),
            mergeStep_lookup_ne own bcs acc x b
              (fun he => hx (he ▸ List.mem_cons_self x xs))]
      rw [hpres bs _ hmem, hres]

/-! ## C1, C8 and C3 -/

/-- C1: For every concrete (non-abstract, non-proxy) model class that
inherits from one or more `Behavior` subclasses, class construction adds to
the model every field declared on every behavior in its method resolution
order; each field's name is the one set for it in the model's inner
configuration class named after that behavior when such a rename is given
(the resolved name), and the behavior's default field name otherwise; this
holds for arbitrarily many behaviors combined via multiple inheritance, under
the freshness conditions of the mechanism (resolved target names do not
collide with existing attributes, with each other, or with behavior names). -/
theorem metabehavior_new_adds_fields
    (name : String) (bases : List BaseCls) (attrs : List (String × PyAttr))
    (modelbaseNew : List (String × FieldObj) → List (String × PyAttr) → MCls)
    (behaviors : List String)
    (basesConfigs : List (List (String × List (String × String))))
    (mro : List ParentRec) (nc : MCls)
    (hnc : nc = metabehavior_premerge false attrs modelbaseNew behaviors basesConfigs)
    (hcheck : basesCheck bases = false)
    (hproxy : nc.proxy = false)
    (hT : ∀ s ∈ flatSteps mro, nc.hasattr (resolvedName nc s.1 s.2.1) = false)
    (hND : ((flatSteps mro).map (fun s => resolvedName nc s.1 s.2.1)).Nodup)
    (hN : ∀ s ∈ flatSteps mro, ∀ s2 ∈ flatSteps mro,
      resolvedName nc s.1 s.2.1 ≠ s2.1)
    (hF : ∀ nf ∈ nc.fields, nc.hasattr nf.1 = true) :
    metabehavior_new name bases false attrs modelbaseNew behaviors basesConfigs mro =
      Except.ok (Behavior.modify_schema mro nc) ∧
    (∀ P ∈ mro, ∀ d, P.declared_fields = some d → ∀ nf ∈ d,
      (Behavior.modify_schema mro nc).fieldData (resolvedName nc P.pname nf.1) =
        some nf.2.data) ∧
    (∀ B mcfg n n2, B ∈ behaviors →
      lookupConfig (ownConfigsOf attrs) B = some mcfg →
      (List.find? (fun p => p.1 == n) mcfg).map (fun p => p.2) = some n2 →
      nc.configLookup B n = some n2) := by
  refine ⟨?_, ?_, ?_⟩
  · subst hnc
    unfold metabehavior_new
    rw [if_neg (by simp [hcheck])]
    rfl
  · intro P hP d hd nf hnf
    have hs := mem_flatSteps mro P d nf hP hd hnf
    rw [modify_schema_eq_fold mro nc hproxy]
    exact foldl_stepFold_adds (flatSteps mro) nc hT hND hN hF (P.pname, nf.1, nf.2) hs
  · intro B mcfg n n2 hB hOwn hfind
    have hconf : nc.configs = merge_parent_settings behaviors (ownConfigsOf attrs)
        basesConfigs ((modelbaseNew [] attrs).configs) := by
      rw [hnc]
      rfl
    obtain ⟨rest, hres⟩ :=
      merge_lookup behaviors (ownConfigsOf attrs) basesConfigs
        ((modelbaseNew [] attrs).configs) B mcfg hB hOwn
    obtain ⟨pB, hpB, hpB2⟩ := Option.map_eq_some'.mp hres
    obtain ⟨pp, hpp, hpp2⟩ := Option.map_eq_some'.mp hfind
    unfold MCls.configLookup
    rw [hconf, hpB]
    simp only
    rw [hpB2, List.find?_append, hpp]
    simp [hpp2]

theorem metabehavior_new_adds_fields_witness :
    metabehavior_new "MyModel" [] false exAttrs exMbn exBehaviors [] exMro =
      Except.ok (Behavior.modify_schema exMro exNc) ∧
    (Behavior.modify_schema exMro exNc).fieldData "qux" = some exFieldBar.data ∧
    (Behavior.modify_schema exMro exNc).fieldData "baz" = some exFieldBaz.data ∧
    exNc.configLookup "FooBehavior" "bar" = some "qux" := by
  have h := metabehavior_new_adds_fields "MyModel" [] exAttrs exMbn exBehaviors []
    exMro exNc rfl rfl rfl (by decide) (by decide) (by decide) (by decide)
  refine ⟨h.1, ?_, ?_, ?_⟩
  · exact h.2.1 (⟨"FooBehavior", some [("bar", exFieldBar)]⟩ : ParentRec) (by decide)
      [("bar", exFieldBar)] rfl ("bar", exFieldBar) (by decide)
  · exact h.2.1 (⟨"BarBehavior", some [("baz", exFieldBaz)]⟩ : ParentRec) (by decide)
      [("baz", exFieldBaz)] rfl ("baz", exFieldBaz) (by decide)
  · exact h.2.2 "FooBehavior" [("bar", "qux")] "bar" "qux" (by decide) rfl rfl

theorem modify_schema_proxy_id (mro : List ParentRec) (cls : MCls)
    (hp : cls.proxy = true) : Behavior.modify_schema mro cls = cls := by
  unfold Behavior.modify_schema
  induction mro with
  | nil => rfl
  | cons P mro ih =>
    rw [List.foldl_cons, if_pos hp]
    exact ih

/-- C8: For every behavior field being added by `modify_schema`, the field is
added only if the model does not already have an attribute with the target
name; an already-present field is never overwritten (its lookup is
unchanged), and each field object added is a copy — its object identity
differs from that of every field declared on the behaviors, so the behavior's
own declared field object is never installed on a consuming model. -/
theorem modify_schema_no_overwrite (mro : List ParentRec) (cls : MCls)
    (hfid : ∀ P ∈ mro, ∀ d, P.declared_fields = some d → ∀ nf ∈ d,
      nf.2.fid < cls.nextId) :
    (∀ k v, List.find? (fun p => p.1 == k) cls.fields = some v →
      List.find? (fun p => p.1 == k) (Behavior.modify_schema mro cls).fields = some v) ∧
    (∀ nf ∈ (Behavior.modify_schema mro cls).fields,
      nf ∈ cls.fields ∨
        (nf.1 ∉ cls.attrNames ∧
          ∀ P ∈ mro, ∀ d, P.declared_fields = some d → ∀ df ∈ d,
            nf.2.fid ≠ df.2.fid)) := by
  by_cases hp : cls.proxy = true
  · rw [modify_schema_proxy_id mro cls hp]
    exact ⟨fun k v h => h, fun nf hnf => Or.inl hnf⟩
  · have hp2 : cls.proxy = false := Bool.eq_false_iff.mpr hp
    rw [modify_schema_eq_fold mro cls hp2]
    obtain ⟨l, hl, hprop⟩ := foldl_stepFold_ext (flatSteps mro) cls
    constructor
    · intro k v h
      rw [hl, List.find?_append, h]
      rfl
    · intro nf hnf
      rw [hl] at hnf
      rcases List.mem_append.mp hnf with hnf | hnf
      · exact Or.inl hnf
      · right
        have h2 := hprop nf hnf
        refine ⟨h2.1, ?_⟩
        intro P hP d hd df hdf
        have h3 := hfid P hP d hd df hdf
        have h4 := h2.2
        omega

theorem modify_schema_no_overwrite_witness :
    List.find? (fun p => p.1 == "title") (Behavior.modify_schema exMro exCls8).fields =
      some ("title", ⟨5, exTitleData⟩) :=
  (modify_schema_no_overwrite exMro exCls8 (by decide)).1 "title"
    ("title", ⟨5, exTitleData⟩) rfl

/-- C3: A model inheriting the `Publishable` behavior (with default names and
no colliding attributes) gains the publish-state fields `publish_at`
(defaulting to the current time) and `is_published` (defaulting to `True`),
and the queryset of its `published` manager contains exactly those rows whose
`is_published` field is `True` and whose `publish_at` field is not later than
the current time at query evaluation. -/
theorem publishable_spec (cls : MCls) (db : List PublishableRow) (t tq : Int)
    (hp : cls.proxy = false)
    (h1 : cls.hasattr "publish_at" = false)
    (h2 : cls.hasattr "is_published" = false)
    (h3 : cls.configLookup "Publishable" "publish_at" = none)
    (h4 : cls.configLookup "Publishable" "is_published" = none)
    (hF : ∀ nf ∈ cls.fields, cls.hasattr nf.1 = true) :
    ((Behavior.modify_schema [⟨"Publishable", some Publishable.declared_fields⟩]
        cls).fieldData "publish_at" = some Publishable.publish_at_data ∧
      (Behavior.modify_schema [⟨"Publishable", some Publishable.declared_fields⟩]
        cls).fieldData "is_published" = some Publishable.is_published_data) ∧
    (fieldDefaultValue Publishable.publish_at_data t = DVal.timeV t ∧
      fieldDefaultValue Publishable.is_published_data t = DVal.boolV true) ∧
    (∀ r, r ∈ PublishableManager.get_queryset db tq ↔
      r ∈ db ∧ r.is_published = true ∧ r.publish_at ≤ tq) := by
  have hrn1 : resolvedName cls "Publishable" "publish_at" = "publish_at" := by
    unfold resolvedName
    rw [h3]
  have hrn2 : resolvedName cls "Publishable" "is_published" = "is_published" := by
    unfold resolvedName
    rw [h4]
  have hsteps : flatSteps [⟨"Publishable", some Publishable.declared_fields⟩] =
      [("Publishable", "publish_at", ⟨2, Publishable.publish_at_data⟩),
       ("Publishable", "is_published", ⟨3, Publishable.is_published_data⟩)] := rfl
  have hadds := foldl_stepFold_adds
    (flatSteps [⟨"Publishable", some Publishable.declared_fields⟩]) cls
    (by
      rw [hsteps]
      intro s hs
      rcases List.mem_cons.mp hs with rfl | hs2
      · rw [hrn1]
        exact h1
      rcases List.mem_cons.mp hs2 with rfl | hs3
      · rw [hrn2]
        exact h2
      cases hs3)
    (by
      rw [hsteps, List.map_cons, List.map_cons, List.map_nil]
      simp only [hrn1, hrn2]
      decide)
    (by
      rw [hsteps]
      intro s hs s2 hs2
      rcases List.mem_cons.mp hs with rfl | hs'
      · rcases List.mem_cons.mp hs2 with rfl | hs2'
        · rw [hrn1]
          decide
        rcases List.mem_cons.mp hs2' with rfl | hs2c
        · rw [hrn1]
          decide
        cases hs2c
      rcases List.mem_cons.mp hs' with rfl | hsc
      · rcases List.mem_cons.mp hs2 with rfl | hs2'
        · rw [hrn2]
          decide
        rcases List.mem_cons.mp hs2' with rfl | hs2c
        · rw [hrn2]
          decide
        cases hs2c
      cases hsc)
    hF
  refine ⟨⟨?_, ?_⟩, ⟨rfl, rfl⟩, ?_⟩
  · rw [modify_schema_eq_fold _ cls hp, ← hrn1]
    exact hadds ("Publishable", "publish_at", ⟨2, Publishable.publish_at_data⟩)
      (by rw [hsteps]; exact List.mem_cons_self _ _)
  · rw [modify_schema_eq_fold _ cls hp, ← hrn2]
    exact hadds ("Publishable", "is_published", ⟨3, Publishable.is_published_data⟩)
      (by rw [hsteps]; exact List.mem_cons_of_mem _ (List.mem_cons_self _ _))
  · intro r
    unfold PublishableManager.get_queryset
    rw [List.mem_filter]
    simp [Bool.and_eq_true, decide_eq_true_iff, and_assoc]

theorem publishable_spec_witness :
    ((Behavior.modify_schema [⟨"Publishable", some Publishable.declared_fields⟩]
        (⟨[], [], [], [], false, 20⟩ : MCls)).fieldData "publish_at" =
          some Publishable.publish_at_data ∧
      (Behavior.modify_schema [⟨"Publishable", some Publishable.declared_fields⟩]
        (⟨[], [], [], [], false, 20⟩ : MCls)).fieldData "is_published" =
          some Publishable.is_published_data) ∧
    (fieldDefaultValue Publishable.publish_at_data 42 = DVal.timeV 42 ∧
      fieldDefaultValue Publishable.is_published_data 42 = DVal.boolV true) ∧
    (∀ r, r ∈ PublishableManager.get_queryset
        [(⟨3, true⟩ : PublishableRow), ⟨9, true⟩, ⟨3, false⟩] 5 ↔
      r ∈ [(⟨3, true⟩ : PublishableRow), ⟨9, true⟩, ⟨3, false⟩] ∧
        r.is_published = true ∧ r.publish_at ≤ 5) :=
  publishable_spec ⟨[], [], [], [], false, 20⟩
    [⟨3, true⟩, ⟨9, true⟩, ⟨3, false⟩] 42 5 rfl rfl rfl rfl rfl
    (by intro nf hnf; cases hnf)

/-! ## Error-dictionary lemmas (for `Validation.clean_fields`) -/

theorem lookupMsgs_cons (p : String × List String) (errs : List (String × List String))
    (k : String) :
    lookupMsgs (p :: errs) k = (if p.1 = k then p.2 else []) ++ lookupMsgs errs k := by
  unfold lookupMsgs
  by_cases h : p.1 = k
  · rw [List.filter_cons_of_pos (by simp [h]), if_pos h, List.map_cons, List.flatten_cons]
  · rw [List.filter_cons_of_neg (by simp [h]), if_neg h, List.nil_append]

theorem lookupMsgs_nil_of_not_mem (errs : List (String × List String)) (a : String)
    (h : a ∉ errs.map Prod.fst) : lookupMsgs errs a = [] := by
  induction errs with
  | nil => rfl
  | cons p errs ih =>
    rw [List.map_cons, List.mem_cons] at h
    push_neg at h
    rw [lookupMsgs_cons, if_neg (fun he => h.1 he.symm), List.nil_append]
    exact ih h.2

theorem extendKey_nil (k : String) (v : List String) : extendKey [] k v = [(k, v)] := rfl

theorem extendKey_ne_nil (errs : List (String × List String)) (k : String)
    (v : List String) : extendKey errs k v ≠ [] := by
  cases errs with
  | nil => simp [extendKey]
  | cons p errs =>
    unfold extendKey
    split <;> simp

theorem mem_keys_extendKey (errs : List (String × List String)) (k : String)
    (v : List String) (a : String) (h : a ∈ (extendKey errs k v).map Prod.fst) :
    a ∈ errs.map Prod.fst ∨ a = k := by
  induction errs with
  | nil =>
    rw [extendKey_nil] at h
    simp at h
    exact Or.inr h
  | cons p errs ih =>
    unfold extendKey at h
    by_cases hpk : p.1 = k
    · rw [if_pos (beq_iff_eq.mpr hpk)] at h
      rw [List.map_cons, List.mem_cons] at h
      rcases h with h | h
      · exact Or.inl (by rw [List.map_cons, List.mem_cons]; exact Or.inl h)
      · exact Or.inl (by rw [List.map_cons, List.mem_cons]; exact Or.inr h)
    · rw [if_neg (by simp [hpk])] at h
      rw [List.map_cons, List.mem_cons] at h
      rcases h with h | h
      · exact Or.inl (by rw [List.map_cons, List.mem_cons]; exact Or.inl h)
      · rcases ih h with h2 | h2
        · exact Or.inl (by rw [List.map_cons, List.mem_cons]; exact Or.inr h2)
        · exact Or.inr h2

theorem extendKey_keys_nodup (errs : List (String × List String)) (k : String)
    (v : List String) (hnd : (errs.map Prod.fst).Nodup) :
    ((extendKey errs k v).map Prod.fst).Nodup := by
  induction errs with
  | nil => simp [extendKey_nil]
  | cons p errs ih =>
    rw [List.map_cons, List.nodup_cons] at hnd
    unfold extendKey
    by_cases hpk : p.1 = k
    · rw [if_pos (beq_iff_eq.mpr hpk)]
      rw [List.map_cons, List.nodup_cons]
      exact hnd
    · rw [if_neg (by simp [hpk])]
      rw [List.map_cons, List.nodup_cons]
      refine ⟨?_, ih hnd.2⟩
      intro hm
      rcases mem_keys_extendKey errs k v p.1 hm with h2 | h2
      · exact hnd.1 h2
      · exact hpk h2

theorem lookupMsgs_extendKey (errs : List (String × List String)) (k : String)
    (v : List String) (k' : String) (hnd : (errs.map Prod.fst).Nodup) :
    lookupMsgs (extendKey errs k v) k' =
      lookupMsgs errs k' ++ (if k = k' then v else []) := by
  induction errs with
  | nil =>
    rw [extendKey_nil, lookupMsgs_cons]
    have : lookupMsgs ([] : List (String × List String)) k' = [] := rfl
    rw [this, List.append_nil, List.nil_append]
  | cons p errs ih =>
    rw [List.map_cons, List.nodup_cons] at hnd
    unfold extendKey
    by_cases hpk : p.1 = k
    · rw [if_pos (beq_iff_eq.mpr hpk)]
      rw [lookupMsgs_cons, lookupMsgs_cons]
      by_cases hk' : p.1 = k'
      · rw [if_pos hk', if_pos hk', if_pos (hpk.symm.trans hk')]
        have hnil : lookupMsgs errs k' = [] := by
          apply lookupMsgs_nil_of_not_mem
          rw [← hk']
          exact hnd.1
        rw [hnil]
        simp
      · rw [if_neg hk', if_neg hk', if_neg (fun he => hk' (hpk.trans he))]
        simp
    · rw [if_neg (by simp [hpk])]
      rw [lookupMsgs_cons, lookupMsgs_cons, ih hnd.2, List.append_assoc]

theorem dictMerge_nil (errs : List (String × List String)) : dictMerge [] errs = errs := rfl

theorem dictMerge_cons (p : String × List String) (d : List (String × List String))
    (errs : List (String × List String)) :
    dictMerge (p :: d) errs = dictMerge d (extendKey errs p.1 p.2) := rfl

theorem dictMerge_keys_nodup (d : List (String × List String))
    (errs : List (String × List String)) (hnd : (errs.map Prod.fst).Nodup) :
    ((dictMerge d errs).map Prod.fst).Nodup := by
  induction d generalizing errs with
  | nil => exact hnd
  | cons p d ih =>
    rw [dictMerge_cons]
    exact ih _ (extendKey_keys_nodup errs p.1 p.2 hnd)

theorem dictMerge_ne_nil (d : List (String × List String))
    (errs : List (String × List String)) (h : errs ≠ [] ∨ d ≠ []) :
    dictMerge d errs ≠ [] := by
  induction d generalizing errs with
  | nil =>
    rcases h with h | h
    · exact h
    · exact absurd rfl h
  | cons p d ih =>
    rw [dictMerge_cons]
    exact ih _ (Or.inl (extendKey_ne_nil errs p.1 p.2))

theorem errContrib_dict (d : List (String × List String)) (dk k : String) :
    errContrib (.dict d) dk k =
      (List.map (fun p => p.2) (List.filter (fun p => p.1 == k) d)).flatten := rfl

theorem errContrib_dict_cons (p : String × List String) (d : List (String × List String))
    (dk k : String) :
    errContrib (.dict (p :: d)) dk k =
      (if p.1 = k then p.2 else []) ++ errContrib (.dict d) dk k := by
  rw [errContrib_dict, errContrib_dict]
  by_cases h : p.1 = k
  · rw [List.filter_cons_of_pos (by simp [h]), if_pos h, List.map_cons, List.flatten_cons]
  · rw [List.filter_cons_of_neg (by simp [h]), if_neg h, List.nil_append]

theorem lookupMsgs_dictMerge (d : List (String × List String))
    (errs : List (String × List String)) (k dk : String)
    (hnd : (errs.map Prod.fst).Nodup) :
    lookupMsgs (dictMerge d errs) k = lookupMsgs errs k ++ errContrib (.dict d) dk k := by
  induction d generalizing errs with
  | nil =>
    rw [dictMerge_nil]
    have : errContrib (.dict []) dk k = [] := rfl
    rw [this, List.append_nil]
  | cons p d ih =>
    rw [dictMerge_cons, ih _ (extendKey_keys_nodup errs p.1 p.2 hnd),
      lookupMsgs_extendKey errs p.1 p.2 k hnd, errContrib_dict_cons,
      List.append_assoc]

theorem update_error_dict_keys_nodup (e : VErr) (errs : List (String × List String))
    (hnd : (errs.map Prod.fst).Nodup) :
    ((update_error_dict e errs).map Prod.fst).Nodup := by
  cases e with
  | dict d => exact dictMerge_keys_nodup d errs hnd
  | msgs ms => exact extendKey_keys_nodup errs NON_FIELD_ERRORS ms hnd

theorem lookupMsgs_update_error_dict (e : VErr) (errs : List (String × List String))
    (k : String) (hnd : (errs.map Prod.fst).Nodup) :
    lookupMsgs (update_error_dict e errs) k =
      lookupMsgs errs k ++ errContrib e NON_FIELD_ERRORS k := by
  cases e with
  | dict d => exact lookupMsgs_dictMerge d errs k NON_FIELD_ERRORS hnd
  | msgs ms =>
    unfold update_error_dict
    rw [lookupMsgs_extendKey errs NON_FIELD_ERRORS ms k hnd]
    rfl

theorem update_error_dict_ne_nil_left (e : VErr) (errs : List (String × List String))
    (h : errs ≠ []) : update_error_dict e errs ≠ [] := by
  cases e with
  | dict d => exact dictMerge_ne_nil d errs (Or.inl h)
  | msgs ms => exact extendKey_ne_nil errs NON_FIELD_ERRORS ms

theorem update_error_dict_ne_nil_raises (e : VErr) (errs : List (String × List String))
    (he : e ≠ VErr.dict []) : update_error_dict e errs ≠ [] := by
  cases e with
  | dict d =>
    refine dictMerge_ne_nil d errs (Or.inr ?_)
    intro hd
    exact he (by rw [hd])
  | msgs ms => exact extendKey_ne_nil errs NON_FIELD_ERRORS ms

/-! ## The field-validation loop -/

theorem fieldCleanStep_keys_nodup (es : List (String × List String)) (f : VField)
    (hnd : (es.map Prod.fst).Nodup) : ((fieldCleanStep es f).map Prod.fst).Nodup := by
  unfold fieldCleanStep
  cases f.validateMethod with
  | none => exact hnd
  | some o =>
    cases o with
    | none => exact hnd
    | some e =>
      cases e with
      | dict d => exact dictMerge_keys_nodup d es hnd
      | msgs ms => exact extendKey_keys_nodup es f.name ms hnd

theorem lookupMsgs_fieldCleanStep (es : List (String × List String)) (f : VField)
    (k : String) (hnd : (es.map Prod.fst).Nodup) :
    lookupMsgs (fieldCleanStep es f) k = lookupMsgs es k ++ fieldContrib f k := by
  unfold fieldCleanStep fieldContrib
  cases f.validateMethod with
  | none => rw [List.append_nil]
  | some o =>
    cases o with
    | none => rw [List.append_nil]
    | some e =>
      cases e with
      | dict d => exact lookupMsgs_dictMerge d es k f.name hnd
      | msgs ms =>
        rw [lookupMsgs_extendKey es f.name ms k hnd]
        rfl

theorem fieldCleanStep_ne_nil_left (es : List (String × List String)) (f : VField)
    (h : es ≠ []) : fieldCleanStep es f ≠ [] := by
  unfold fieldCleanStep
  cases f.validateMethod with
  | none => exact h
  | some o =>
    cases o with
    | none => exact h
    | some e =>
      cases e with
      | dict d => exact dictMerge_ne_nil d es (Or.inl h)
      | msgs ms => exact extendKey_ne_nil es f.name ms

theorem fieldCleanStep_ne_nil_raises (es : List (String × List String)) (f : VField)
    (e : VErr) (he : f.validateMethod = some (some e)) (hne : e ≠ VErr.dict []) :
    fieldCleanStep es f ≠ [] := by
  unfold fieldCleanStep
  rw [he]
  cases e with
  | dict d =>
    refine dictMerge_ne_nil d es (Or.inr ?_)
    intro hd
    exact hne (by rw [hd])
  | msgs ms => exact extendKey_ne_nil es f.name ms

theorem fieldFold_keys_nodup (fs : List VField) (es : List (String × List String))
    (hnd : (es.map Prod.fst).Nodup) :
    ((fs.foldl fieldCleanStep es).map Prod.fst).Nodup := by
  induction fs generalizing es with
  | nil => exact hnd
  | cons f fs ih =>
    rw [List.foldl_cons]
    exact ih _ (fieldCleanStep_keys_nodup es f hnd)

theorem lookupMsgs_fieldFold (fs : List VField) (es : List (String × List String))
    (k : String) (hnd : (es.map Prod.fst).Nodup) :
    lookupMsgs (fs.foldl fieldCleanStep es) k =
      lookupMsgs es k ++ (fs.map (fun f => fieldContrib f k)).flatten := by
  induction fs generalizing es with
  | nil =>
    rw [List.foldl_nil, List.map_nil]
    simp
  | cons f fs ih =>
    rw [List.foldl_cons, ih _ (fieldCleanStep_keys_nodup es f hnd),
      lookupMsgs_fieldCleanStep es f k hnd, List.map_cons, List.flatten_cons,
      List.append_assoc]

theorem fieldFold_ne_nil_left (fs : List VField) (es : List (String × List String))
    (h : es ≠ []) : fs.foldl fieldCleanStep es ≠ [] := by
  induction fs generalizing es with
  | nil => exact h
  | cons f fs ih =>
    rw [List.foldl_cons]
    exact ih _ (fieldCleanStep_ne_nil_left es f h)

theorem fieldFold_ne_nil_raises (fs : List VField) (es : List (String × List String))
    (h : ∃ f ∈ fs, ∃ e, f.validateMethod = some (some e) ∧ e ≠ VErr.dict []) :
    fs.foldl fieldCleanStep es ≠ [] := by
  induction fs generalizing es with
  | nil =>
    rcases h with ⟨f, hf, _⟩
    cases hf
  | cons f0 fs ih =>
    rw [List.foldl_cons]
    rcases h with ⟨f, hf, e, he, hne⟩
    rcases List.mem_cons.mp hf with rfl | hf2
    · exact fieldFold_ne_nil_left fs _ (fieldCleanStep_ne_nil_raises es f e he hne)
    · exact ih _ ⟨f, hf2, e, he, hne⟩

theorem fieldCleanStep_id (es : List (String × List String)) (f : VField)
    (h : f.validateMethod = none ∨ f.validateMethod = some none) :
    fieldCleanStep es f = es := by
  unfold fieldCleanStep
  rcases h with h | h <;> rw [h]

/-! ## The phases of `clean_fields` -/

theorem clean_fields_eq (m : VInstance) :
    Validation.clean_fields m =
      if (cleanErrsRaw m).isEmpty then none else some (cleanErrsRaw m) := rfl

theorem superErrs_keys_nodup (m : VInstance) : ((superErrs m).map Prod.fst).Nodup := by
  unfold superErrs
  cases m.superCleanFields with
  | none => exact List.nodup_nil
  | some d => exact update_error_dict_keys_nodup _ [] List.nodup_nil

theorem lookupMsgs_superErrs (m : VInstance) (k : String) :
    lookupMsgs (superErrs m) k = superMsgs m k := by
  unfold superErrs superMsgs
  cases m.superCleanFields with
  | none => rfl
  | some d =>
    rw [lookupMsgs_update_error_dict _ [] k List.nodup_nil]
    rfl

theorem preFieldErrs_keys_nodup (m : VInstance) :
    ((preFieldErrs m).map Prod.fst).Nodup := by
  unfold preFieldErrs
  cases m.validateM with
  | none => exact superErrs_keys_nodup m
  | some o =>
    cases o with
    | none => exact superErrs_keys_nodup m
    | some e => exact update_error_dict_keys_nodup e _ (superErrs_keys_nodup m)

theorem lookupMsgs_preFieldErrs (m : VInstance) (k : String) :
    lookupMsgs (preFieldErrs m) k = superMsgs m k ++ validateMsgs m k := by
  unfold preFieldErrs validateMsgs
  cases m.validateM with
  | none => rw [lookupMsgs_superErrs, List.append_nil]
  | some o =>
    cases o with
    | none => rw [lookupMsgs_superErrs, List.append_nil]
    | some e =>
      rw [lookupMsgs_update_error_dict e _ k (superErrs_keys_nodup m),
        lookupMsgs_superErrs]

theorem lookupMsgs_cleanErrsRaw (m : VInstance) (k : String) :
    lookupMsgs (cleanErrsRaw m) k =
      superMsgs m k ++ validateMsgs m k ++ fieldsMsgs m k := by
  unfold cleanErrsRaw fieldsMsgs
  rw [lookupMsgs_fieldFold m.fields _ k (preFieldErrs_keys_nodup m),
    lookupMsgs_preFieldErrs]

theorem fieldFold_id (fs : List VField) (es : List (String × List String))
    (h : ∀ f ∈ fs, f.validateMethod = none ∨ f.validateMethod = some none) :
    fs.foldl fieldCleanStep es = es := by
  induction fs generalizing es with
  | nil => rfl
  | cons f fs ih =>
    rw [List.foldl_cons, fieldCleanStep_id es f (h f (List.mem_cons_self f fs))]
    exact ih es (fun g hg => h g (List.mem_cons_of_mem f hg))

theorem cleanErrsRaw_nil (m : VInstance)
    (h1 : m.superCleanFields = none)
    (h2 : m.validateM = none ∨ m.validateM = some none)
    (h3 : ∀ f ∈ m.fields, f.validateMethod = none ∨ f.validateMethod = some none) :
    cleanErrsRaw m = [] := by
  have hs : superErrs m = [] := by
    unfold superErrs
    rw [h1]
  have hpre : preFieldErrs m = [] := by
    unfold preFieldErrs
    rcases h2 with h2 | h2 <;> rw [h2] <;> exact hs
  unfold cleanErrsRaw
  rw [hpre]
  exact fieldFold_id m.fields [] h3

/-- C4: For every instance of a model inheriting the `Validation` behavior
(whose sources, when they raise, raise errors with at least one entry, as
Django's own field cleaning does), `clean_fields` raises a `ValidationError`
if and only if at least one of the host framework's field cleaning, the
`validate` method (when present), or a `validate_<field>` method (when
present) raises one; the raised exception's error dictionary aggregates every
message of every source — with plain messages of `validate` under
`NON_FIELD_ERRORS` and plain messages of a `validate_<field>` method under
that field's name — and when no source raises, `clean_fields` returns
normally without raising. -/
theorem validation_clean_fields_spec (m : VInstance)
    (hsup : ∀ d, m.superCleanFields = some d → d ≠ [])
    (hval : ∀ e, m.validateM = some (some e) → e ≠ VErr.dict [])
    (hfld : ∀ f ∈ m.fields, ∀ e, f.validateMethod = some (some e) → e ≠ VErr.dict []) :
    ((Validation.clean_fields m).isSome = true ↔ raisesAny m) ∧
    (∀ errs, Validation.clean_fields m = some errs →
      ∀ k, lookupMsgs errs k = superMsgs m k ++ validateMsgs m k ++ fieldsMsgs m k) ∧
    (¬ raisesAny m → Validation.clean_fields m = none) := by
  have hnotr : ¬ raisesAny m → cleanErrsRaw m = [] := by
    intro h
    unfold raisesAny at h
    push_neg at h
    obtain ⟨ha, hb, hc⟩ := h
    apply cleanErrsRaw_nil m ha
    · cases hv : m.validateM with
      | none => exact Or.inl rfl
      | some o =>
        cases o with
        | none => exact Or.inr rfl
        | some e => exact absurd hv (hb e)
    · intro f hf
      cases hm : f.validateMethod with
      | none => exact Or.inl rfl
      | some o =>
        cases o with
        | none => exact Or.inr rfl
        | some e => exact absurd hm (hc f hf e)
  have hr : raisesAny m → cleanErrsRaw m ≠ [] := by
    intro h
    rcases h with h | ⟨e, he⟩ | ⟨f, hf, e, he⟩
    · cases hs : m.superCleanFields with
      | none => exact absurd hs h
      | some d =>
        have hsup_ne : superErrs m ≠ [] := by
          unfold superErrs
          rw [hs]
          exact update_error_dict_ne_nil_raises _ []
            (fun hd => hsup d hs (by injection hd))
        have hpre : preFieldErrs m ≠ [] := by
          unfold preFieldErrs
          cases m.validateM with
          | none => exact hsup_ne
          | some o =>
            cases o with
            | none => exact hsup_ne
            | some e2 => exact update_error_dict_ne_nil_left e2 _ hsup_ne
        exact fieldFold_ne_nil_left m.fields _ hpre
    · have hpre : preFieldErrs m ≠ [] := by
        unfold preFieldErrs
        rw [he]
        exact update_error_dict_ne_nil_raises e _ (hval e he)
      exact fieldFold_ne_nil_left m.fields _ hpre
    · exact fieldFold_ne_nil_raises m.fields _ ⟨f, hf, e, he, hfld f hf e he⟩
  refine ⟨?_, ?_, ?_⟩
  · rw [clean_fields_eq]
    constructor
    · intro hs
      by_contra hnr
      rw [hnotr hnr] at hs
      simp at hs
    · intro hra
      rw [if_neg (by simpa using hr hra)]
      rfl
  · intro errs hsome k
    rw [clean_fields_eq] at hsome
    by_cases hemp : (cleanErrsRaw m).isEmpty = true
    · rw [if_pos hemp] at hsome
      cases hsome
    · rw [if_neg hemp, Option.some.injEq] at hsome
      subst hsome
      exact lookupMsgs_cleanErrsRaw m k
  · intro hnr
    rw [clean_fields_eq, hnotr hnr]
    rfl

theorem validation_clean_fields_spec_witness :
    ((Validation.clean_fields
        ⟨some [("name", ["req"])], some (some (VErr.msgs ["bad"])),
         [⟨"name", some (some (VErr.msgs ["invalid"]))⟩, ⟨"age", none⟩]⟩).isSome = true ↔
      raisesAny
        ⟨some [("name", ["req"])], some (some (VErr.msgs ["bad"])),
         [⟨"name", some (some (VErr.msgs ["invalid"]))⟩, ⟨"age", none⟩]⟩) ∧
    lookupMsgs [("name", ["req", "invalid"]), ("__all__", ["bad"])] "name" =
      superMsgs
          ⟨some [("name", ["req"])], some (some (VErr.msgs ["bad"])),
           [⟨"name", some (some (VErr.msgs ["invalid"]))⟩, ⟨"age", none⟩]⟩ "name" ++
        validateMsgs
          ⟨some [("name", ["req"])], some (some (VErr.msgs ["bad"])),
           [⟨"name", some (some (VErr.msgs ["invalid"]))⟩, ⟨"age", none⟩]⟩ "name" ++
        fieldsMsgs
          ⟨some [("name", ["req"])], some (some (VErr.msgs ["bad"])),
           [⟨"name", some (some (VErr.msgs ["invalid"]))⟩, ⟨"age", none⟩]⟩ "name" ∧
    Validation.clean_fields (⟨none, none, [⟨"age", none⟩]⟩ : VInstance) = none := by
  have h1 := validation_clean_fields_spec
    ⟨some [("name", ["req"])], some (some (VErr.msgs ["bad"])),
     [⟨"name", some (some (VErr.msgs ["invalid"]))⟩, ⟨"age", none⟩]⟩
    (by
      intro d hd
      cases hd
      decide)
    (by
      intro e he
      cases he
      decide)
    (by
      intro f hf e he
      rcases List.mem_cons.mp hf with rfl | hf2
      · cases he
        decide
      rcases List.mem_cons.mp hf2 with rfl | hf3
      · cases he
      cases hf3)
  have h2 := validation_clean_fields_spec (⟨none, none, [⟨"age", none⟩]⟩ : VInstance)
    (by
      intro d hd
      cases hd)
    (by
      intro e he
      cases he)
    (by
      intro f hf e he
      rcases List.mem_cons.mp hf with rfl | hf2
      · cases he
      cases hf2)
  refine ⟨h1.1, h1.2.1 [("name", ["req", "invalid"]), ("__all__", ["bad"])] rfl "name", ?_⟩
  apply h2.2.2
  rintro (h | ⟨e, he⟩ | ⟨f, hf, e, he⟩)
  · exact h rfl
  · cases he
  · rcases List.mem_cons.mp hf with rfl | hf2
    · cases he
    cases hf2

end Fusionbox
